import Mathlib

/-!
Verification development for the ethersync repository.

The file shallowly embeds:
* the `operational-transform` crate operations used by `src/rust/src/ot.rs`
  (`OperationSeq` with its `retain`/`insert`/`delete` builders, `apply`,
  `transform` and `compose`),
* the prototype OT reconciler of `src/rust/src/ot.rs` (`Op`, `Range`,
  `Position`, `Op::to_ot`, `Op::from`, `Op::transform_through_operations`,
  `OTServer`),
* the Document Actor of `src/daemon/src/daemon.rs` (`Document`,
  `DocumentActor::handle_message` and its helpers), with the pieces of the
  repository that are not part of the sources (the daemon's `types` module and
  its own `ot` module, and the automerge CRDT library surface) modelled from
  the specification, and
* the peer frame reader of `src/daemon/src/peer.rs`
  (`TCPReadActor::read_message` / `run`).

Strings are modelled as `List Char` (Rust iterates `chars()` for content
operations); where the Rust source uses a *byte* length (`String::len`,
`str::len`), the embedding uses `utf8Len`.  Loops with non-structural
termination receive a `fuel` argument; the public wrappers pass a fuel that is
an upper bound on the number of iterations, so running out of fuel is
unreachable and is mapped to `none`, like the error returns it stands next to.
Rust panics (`unwrap`, `assert!`, `expect`, `todo!`) are modelled as `none` /
dedicated `crashed` results.
-/

namespace Ethersync

/-- `operational_transform::Operation`: one primitive of an operation
sequence. -/
inductive OTOperation where
  | Retain (n : Nat)
  | Delete (n : Nat)
  | Insert (s : List Char)
deriving DecidableEq, Repr

/-- `operational_transform::OperationSeq`: the list of primitives together
with the cached base and target lengths maintained by the builders. -/
structure OperationSeq where
  ops : List OTOperation := []
  base_len : Nat := 0
  target_len : Nat := 0
deriving DecidableEq, Repr

/-- `OperationSeq::default()`. -/
def OperationSeq.default : OperationSeq := {}

/-- Helper of `OperationSeq::retain`: merge into a trailing `Retain`,
otherwise push at the end (the Rust code mutates `ops.last_mut()`). -/
def pushRetain : List OTOperation → Nat → List OTOperation
  | [], n => [.Retain n]
  | [.Retain m], n => [.Retain (m + n)]
  | x :: xs, n => x :: pushRetain xs n

/-- Helper of `OperationSeq::delete`: merge into a trailing `Delete`,
otherwise push at the end. -/
def pushDelete : List OTOperation → Nat → List OTOperation
  | [], n => [.Delete n]
  | [.Delete m], n => [.Delete (m + n)]
  | x :: xs, n => x :: pushDelete xs n

/-- Helper of `OperationSeq::insert`: merge into a trailing `Insert`, merge
into an `Insert` sitting right before a trailing `Delete`, or swap with a
trailing `Delete` (inserts are kept before deletes), otherwise push. -/
def pushInsert : List OTOperation → List Char → List OTOperation
  | [], s => [.Insert s]
  | [.Insert t], s => [.Insert (t ++ s)]
  | [.Insert t, .Delete d], s => [.Insert (t ++ s), .Delete d]
  | [.Delete d], s => [.Insert s, .Delete d]
  | x :: xs, s => x :: pushInsert xs s

/-- `OperationSeq::retain`. -/
def OperationSeq.retain (seq : OperationSeq) (n : Nat) : OperationSeq :=
  if n = 0 then seq
  else { ops := pushRetain seq.ops n
         base_len := seq.base_len + n
         target_len := seq.target_len + n }

/-- `OperationSeq::delete`. -/
def OperationSeq.delete (seq : OperationSeq) (n : Nat) : OperationSeq :=
  if n = 0 then seq
  else { ops := pushDelete seq.ops n
         base_len := seq.base_len + n
         target_len := seq.target_len }

/-- `OperationSeq::insert`. -/
def OperationSeq.insert (seq : OperationSeq) (s : List Char) : OperationSeq :=
  if s = [] then seq
  else { ops := pushInsert seq.ops s
         base_len := seq.base_len
         target_len := seq.target_len + s.length }

/-- Semantics of a primitive list on a character list, as in
`OperationSeq::apply`'s main loop: `Retain n` copies `n` input characters,
`Delete n` skips them, `Insert s` emits `s`.  Input characters that remain
after the last primitive are not copied (the Rust loop only consumes what the
primitives mention; the base-length check of `apply` makes the primitives
consume the whole input). -/
def applyOps : List OTOperation → List Char → List Char
  | [], _ => []
  | .Retain n :: t, cs => cs.take n ++ applyOps t (cs.drop n)
  | .Delete n :: t, cs => applyOps t (cs.drop n)
  | .Insert s :: t, cs => s ++ applyOps t cs

/-- `OperationSeq::apply`: errors unless the input's character count equals
the base length. -/
def OperationSeq.apply (seq : OperationSeq) (s : List Char) : Option (List Char) :=
  if s.length = seq.base_len then some (applyOps seq.ops s) else none

/-- Sum of `Retain`+`Delete` counts of a primitive list (the base length the
cached `base_len` field tracks). -/
def baseLen : List OTOperation → Nat
  | [] => 0
  | .Retain n :: t => n + baseLen t
  | .Delete n :: t => n + baseLen t
  | .Insert _ :: t => baseLen t

/-- Sum of `Retain` counts plus inserted character counts (the target length
the cached `target_len` field tracks). -/
def targetLen : List OTOperation → Nat
  | [] => 0
  | .Retain n :: t => n + targetLen t
  | .Delete _ :: t => targetLen t
  | .Insert s :: t => s.length + targetLen t

/-- The loop of `OperationSeq::transform`, with the two accumulators
`a_prime`/`b_prime` built through the merging builders exactly as the crate
does.  `fuel` bounds the number of iterations; the wrapper passes one more
than `ops1.length + ops2.length`, which every path decreases. -/
def transformGo : Nat → OperationSeq → OperationSeq → List OTOperation → List OTOperation →
    Option (OperationSeq × OperationSeq)
  | 0, _, _, _, _ => none
  | _ + 1, aP, bP, [], [] => some (aP, bP)
  | fuel + 1, aP, bP, .Insert s :: t1, o2 =>
      transformGo fuel (aP.insert s) (bP.retain s.length) t1 o2
  | fuel + 1, aP, bP, o1, .Insert s :: t2 =>
      transformGo fuel (aP.retain s.length) (bP.insert s) o1 t2
  | _ + 1, _, _, [], _ => none
  | _ + 1, _, _, _, [] => none
  | fuel + 1, aP, bP, .Retain i :: t1, .Retain j :: t2 =>
      if i < j then transformGo fuel (aP.retain i) (bP.retain i) t1 (.Retain (j - i) :: t2)
      else if j < i then transformGo fuel (aP.retain j) (bP.retain j) (.Retain (i - j) :: t1) t2
      else transformGo fuel (aP.retain i) (bP.retain i) t1 t2
  | fuel + 1, aP, bP, .Delete i :: t1, .Delete j :: t2 =>
      if i < j then transformGo fuel aP bP t1 (.Delete (j - i) :: t2)
      else if j < i then transformGo fuel aP bP (.Delete (i - j) :: t1) t2
      else transformGo fuel aP bP t1 t2
  | fuel + 1, aP, bP, .Delete i :: t1, .Retain j :: t2 =>
      if i < j then transformGo fuel (aP.delete i) bP t1 (.Retain (j - i) :: t2)
      else if j < i then transformGo fuel (aP.delete j) bP (.Delete (i - j) :: t1) t2
      else transformGo fuel (aP.delete i) bP t1 t2
  | fuel + 1, aP, bP, .Retain i :: t1, .Delete j :: t2 =>
      if i < j then transformGo fuel aP (bP.delete i) t1 (.Delete (j - i) :: t2)
      else if j < i then transformGo fuel aP (bP.delete j) (.Retain (i - j) :: t1) t2
      else transformGo fuel aP (bP.delete j) t1 t2

/-- `OperationSeq::transform`: requires equal base lengths, then runs the
loop on fresh accumulators.  Returns `(a_prime, b_prime)` for
`self.transform(other)`. -/
def OperationSeq.transform (a b : OperationSeq) : Option (OperationSeq × OperationSeq) :=
  if a.base_len = b.base_len then
    transformGo (a.ops.length + b.ops.length + 1) OperationSeq.default OperationSeq.default a.ops b.ops
  else none

/-- The loop of `OperationSeq::compose`, accumulator built through the
merging builders as in the crate. -/
def composeGo : Nat → OperationSeq → List OTOperation → List OTOperation → Option OperationSeq
  | 0, _, _, _ => none
  | _ + 1, acc, [], [] => some acc
  | fuel + 1, acc, .Delete i :: t1, o2 => composeGo fuel (acc.delete i) t1 o2
  | fuel + 1, acc, o1, .Insert s :: t2 => composeGo fuel (acc.insert s) o1 t2
  | _ + 1, _, [], _ => none
  | _ + 1, _, _, [] => none
  | fuel + 1, acc, .Retain i :: t1, .Retain j :: t2 =>
      if i < j then composeGo fuel (acc.retain i) t1 (.Retain (j - i) :: t2)
      else if j < i then composeGo fuel (acc.retain j) (.Retain (i - j) :: t1) t2
      else composeGo fuel (acc.retain i) t1 t2
  | fuel + 1, acc, .Insert s :: t1, .Delete j :: t2 =>
      if s.length < j then composeGo fuel acc t1 (.Delete (j - s.length) :: t2)
      else if j < s.length then composeGo fuel acc (.Insert (s.drop j) :: t1) t2
      else composeGo fuel acc t1 t2
  | fuel + 1, acc, .Insert s :: t1, .Retain j :: t2 =>
      if s.length < j then composeGo fuel (acc.insert s) t1 (.Retain (j - s.length) :: t2)
      else if j < s.length then composeGo fuel (acc.insert (s.take j)) (.Insert (s.drop j) :: t1) t2
      else composeGo fuel (acc.insert s) t1 t2
  | fuel + 1, acc, .Retain i :: t1, .Delete j :: t2 =>
      if i < j then composeGo fuel (acc.delete i) t1 (.Delete (j - i) :: t2)
      else if j < i then composeGo fuel (acc.delete j) (.Retain (i - j) :: t1) t2
      else composeGo fuel (acc.delete j) t1 t2

/-- `OperationSeq::compose`: requires `self.target_len == other.base_len`. -/
def OperationSeq.compose (a b : OperationSeq) : Option OperationSeq :=
  if a.target_len = b.base_len then
    composeGo (a.ops.length + b.ops.length + 1) OperationSeq.default a.ops b.ops
  else none

/-- Specification-level form of the transform loop: the same case analysis and
recursion as `transformGo`, but the two outputs are built by direct consing
instead of the merging accumulator builders.  It is proved below to agree with
`transformGo` up to `applyOps`. -/
def transformRec : Nat → List OTOperation → List OTOperation →
    Option (List OTOperation × List OTOperation)
  | 0, _, _ => none
  | _ + 1, [], [] => some ([], [])
  | fuel + 1, .Insert s :: t1, o2 =>
      (transformRec fuel t1 o2).map (fun p => (.Insert s :: p.1, .Retain s.length :: p.2))
  | fuel + 1, o1, .Insert s :: t2 =>
      (transformRec fuel o1 t2).map (fun p => (.Retain s.length :: p.1, .Insert s :: p.2))
  | _ + 1, [], _ => none
  | _ + 1, _, [] => none
  | fuel + 1, .Retain i :: t1, .Retain j :: t2 =>
      if i < j then
        (transformRec fuel t1 (.Retain (j - i) :: t2)).map
          (fun p => (.Retain i :: p.1, .Retain i :: p.2))
      else if j < i then
        (transformRec fuel (.Retain (i - j) :: t1) t2).map
          (fun p => (.Retain j :: p.1, .Retain j :: p.2))
      else
        (transformRec fuel t1 t2).map (fun p => (.Retain i :: p.1, .Retain i :: p.2))
  | fuel + 1, .Delete i :: t1, .Delete j :: t2 =>
      if i < j then transformRec fuel t1 (.Delete (j - i) :: t2)
      else if j < i then transformRec fuel (.Delete (i - j) :: t1) t2
      else transformRec fuel t1 t2
  | fuel + 1, .Delete i :: t1, .Retain j :: t2 =>
      if i < j then
        (transformRec fuel t1 (.Retain (j - i) :: t2)).map (fun p => (.Delete i :: p.1, p.2))
      else if j < i then
        (transformRec fuel (.Delete (i - j) :: t1) t2).map (fun p => (.Delete j :: p.1, p.2))
      else
        (transformRec fuel t1 t2).map (fun p => (.Delete i :: p.1, p.2))
  | fuel + 1, .Retain i :: t1, .Delete j :: t2 =>
      if i < j then
        (transformRec fuel t1 (.Delete (j - i) :: t2)).map (fun p => (p.1, .Delete i :: p.2))
      else if j < i then
        (transformRec fuel (.Retain (i - j) :: t1) t2).map (fun p => (p.1, .Delete j :: p.2))
      else
        (transformRec fuel t1 t2).map (fun p => (p.1, .Delete j :: p.2))

/-! ### `src/rust/src/ot.rs`: the prototype OT reconciler -/

/-- `Position` of ot.rs. -/
structure Position where
  line : Nat
  column : Nat
deriving DecidableEq, Repr

/-- `Range` of ot.rs. -/
structure Range where
  anchor : Position
  head : Position
deriving DecidableEq, Repr

/-- `Range::empty`. -/
def Range.empty (r : Range) : Bool := r.anchor == r.head

/-- `Range::forward`. -/
def Range.forward (r : Range) : Bool :=
  decide (r.anchor.line < r.head.line) ||
    (decide (r.anchor.line = r.head.line) && decide (r.anchor.column ≤ r.head.column))

/-- `OpElement` of ot.rs. -/
structure OpElement where
  range : Range
  replacement : List Char
deriving DecidableEq, Repr

/-- `Op` of ot.rs: a vector of range-replacement elements. -/
structure Op where
  v : List OpElement
deriving DecidableEq, Repr

/-- `Op::len`. -/
def Op.len (op : Op) : Nat := op.v.length

/-- Byte length of a string under UTF-8 (Rust `str::len`). -/
def utf8Len (s : List Char) : Nat := (s.map Char.utf8Size).sum

/-- The loop of `Op::from(&OperationSeq)`.  Two quirks of the source are
kept faithfully: a `Delete` does *not* advance the running position, and an
`Insert` advances it by the byte length (`s.len()`) of the inserted text. -/
def fromSeqGo : List OTOperation → Nat → List OpElement
  | [], _ => []
  | .Retain n :: t, position => fromSeqGo t (position + n)
  | .Delete n :: t, position =>
      { range := { anchor := { line := 0, column := position },
                   head := { line := 0, column := position + n } },
        replacement := [] } :: fromSeqGo t position
  | .Insert s :: t, position =>
      { range := { anchor := { line := 0, column := position },
                   head := { line := 0, column := position } },
        replacement := s } :: fromSeqGo t (position + utf8Len s)

/-- `Op::from(&OperationSeq)`. -/
def Op.fromSeq (opseq : OperationSeq) : Op := { v := fromSeqGo opseq.ops 0 }

/-- One iteration of the loop in `Op::to_ot`.  The `assert!` on
`range.anchor.line == 0`, the `todo!()` replace case, and the `unwrap` on
`compose` are modelled as `none`. -/
def toOtStep (opseq : OperationSeq) (op : OpElement) : Option OperationSeq :=
  if op.range.anchor.line ≠ 0 then none
  else
    let opseq_sub : Option OperationSeq :=
      if op.replacement ≠ [] then
        if op.range.empty then
          some ((OperationSeq.default.retain op.range.anchor.column).insert op.replacement)
        else none
      else
        if !op.range.empty then
          let start := if op.range.forward then op.range.anchor.column else op.range.head.column
          let stop := if op.range.forward then op.range.head.column else op.range.anchor.column
          some ((OperationSeq.default.retain start).delete (stop - start))
        else some OperationSeq.default
    match opseq_sub with
    | none => none
    | some sub =>
        let opseq := if opseq.target_len < sub.base_len
          then opseq.retain (sub.base_len - opseq.target_len) else opseq
        opseq.compose sub

/-- `Op::to_ot`. -/
def Op.to_ot (op : Op) : Option OperationSeq :=
  op.v.foldlM toOtStep OperationSeq.default

/-- `Op::transform_through_operations`: transform `self` (the editor's
operation) through the queued daemon operations; the `assert!` on
single-element operations and the `unwrap` on `transform` are `none`. -/
def Op.transform_through_operations : Op → List Op → Option (Op × List Op)
  | their_operation, [] => some (their_operation, [])
  | their_operation, my_operation :: rest =>
      if my_operation.len ≠ 1 then none
      else match my_operation.to_ot, their_operation.to_ot with
        | some my0, some their0 =>
            let my_opseq := if my0.base_len < their0.base_len
              then my0.retain (their0.base_len - my0.base_len) else my0
            let their_opseq := if my0.base_len < their0.base_len
              then their0 else their0.retain (my0.base_len - their0.base_len)
            match my_opseq.transform their_opseq with
            | some (my_prime, their_prime) =>
                (Op.transform_through_operations (Op.fromSeq their_prime) rest).map
                  (fun p => (p.1, Op.fromSeq my_prime :: p.2))
            | none => none
        | _, _ => none

/-- `OTServer` of ot.rs. -/
structure OTServer where
  editor_revision : Nat := 0
  daemon_revision : Nat := 0
  operations : List Op := []
  editor_queue : List Op := []
  document : List Char := []
deriving DecidableEq, Repr

/-- `OTServer::new`. -/
def OTServer.new : OTServer := {}

/-- `OTServer::new_with_doc`. -/
def OTServer.new_with_doc (document : List Char) : OTServer := { document := document }

/-- `OTServer::apply_change_to_document`: pad the operation up to the
document's *byte* length (`self.document.len()`), then apply; the `unwrap`
on `apply` is `none`. -/
def OTServer.apply_change_to_document (s : OTServer) (op : Op) : Option (List Char) := do
  let ot_op ← op.to_ot
  let ot_op := if ot_op.base_len < utf8Len s.document
    then ot_op.retain (utf8Len s.document - ot_op.base_len) else ot_op
  ot_op.apply s.document

/-- `OTServer::apply_crdt_change`. -/
def OTServer.apply_crdt_change (s : OTServer) (op : Op) : Option OTServer :=
  let s' := { s with operations := s.operations ++ [op],
                     editor_queue := s.editor_queue ++ [op],
                     daemon_revision := s.daemon_revision + 1 }
  (s'.apply_change_to_document op).map (fun d => { s' with document := d })

/-- `OTServer::add_editor_operation`. -/
def OTServer.add_editor_operation (s : OTServer) (op : Op) : Option OTServer :=
  let s' := { s with operations := s.operations ++ [op],
                     editor_revision := s.editor_revision + 1 }
  (s'.apply_change_to_document op).map (fun d => { s' with document := d })

/-- Result of `OTServer::apply_editor_operation`: `futureRevisionIgnored` is
the silently-empty first branch (the revision-from-the-future case does
nothing at all); `crashed` is a failed `assert!`/`unwrap` (a Rust panic). -/
inductive EditorOpOutcome where
  | ok (s : OTServer)
  | futureRevisionIgnored
  | crashed
deriving DecidableEq, Repr

/-- `OTServer::apply_editor_operation`. -/
def OTServer.apply_editor_operation (s : OTServer) (daemon_revision : Nat) (op : Op) :
    EditorOpOutcome :=
  if daemon_revision > s.daemon_revision then .futureRevisionIgnored
  else if daemon_revision = s.daemon_revision then
    match s.add_editor_operation op with
    | some s' => .ok s'
    | none => .crashed
  else
    let daemon_operations_to_transform := s.daemon_revision - daemon_revision
    if s.editor_queue.length < daemon_operations_to_transform then .crashed
    else
      let seen_operations := s.editor_queue.length - daemon_operations_to_transform
      let editor_queue := s.editor_queue.drop seen_operations
      match op.transform_through_operations editor_queue with
      | some p =>
          match ({ s with editor_queue := p.2 }).add_editor_operation p.1 with
          | some s' => .ok s'
          | none => .crashed
      | none => .crashed

/-- States of the prototype `OTServer` reachable from a fresh server by
`apply_crdt_change` and `apply_editor_operation` calls that complete. -/
inductive OTServer.Reachable : OTServer → Prop where
  | new : OTServer.Reachable OTServer.new
  | new_with_doc (d : List Char) : OTServer.Reachable (OTServer.new_with_doc d)
  | crdt_change {s s' : OTServer} {op : Op} :
      OTServer.Reachable s → s.apply_crdt_change op = some s' → OTServer.Reachable s'
  | editor_op {s s' : OTServer} {rev : Nat} {op : Op} :
      OTServer.Reachable s → s.apply_editor_operation rev op = .ok s' → OTServer.Reachable s'

/-! ### `src/daemon/src/daemon.rs`: the Document Actor

The daemon crate's `types` and `ot` modules and the automerge library are not
among the sources; the definitions below that stand in for them are marked
"Modelled from the spec".  The control flow of `Document` and
`DocumentActor` itself is translated from daemon.rs. -/

/-- Modelled from the spec: `types::TextDelta`'s primitive (§3 "Text delta":
`retain(n)`, `insert(s)`, `delete(n)`); the `types` module is not among the
sources. -/
inductive TextOp where
  | retain (n : Nat)
  | insert (s : List Char)
  | delete (n : Nat)
deriving DecidableEq, Repr

/-- Modelled from the spec: `types::TextDelta`, an ordered sequence of
primitive operations over a virtual cursor (§3). -/
abbrev TextDelta := List TextOp

/-- Modelled from the spec: a (line, column) position on the editor boundary
(§3: lines indexed by newline, columns by characters within the line). -/
structure EdPosition where
  line : Nat
  column : Nat
deriving DecidableEq, Repr

/-- Modelled from the spec: a range on the editor boundary. -/
structure EdRange where
  anchor : EdPosition
  head : EdPosition
deriving DecidableEq, Repr

/-- Modelled from the spec: one range-replacement of an editor delta (§3
"Editor delta"). -/
structure EdOp where
  range : EdRange
  replacement : List Char
deriving DecidableEq, Repr

/-- Modelled from the spec: `types::EditorTextDelta`, a sequence of
range-replacements. -/
abbrev EditorTextDelta := List EdOp

/-- Modelled from the spec: `types::RevisionedEditorTextDelta` (§3), an
editor delta paired with a revision. -/
structure RevisionedEditorTextDelta where
  revision : Nat
  delta : EditorTextDelta
deriving DecidableEq, Repr

/-- Character offset at which line `n` starts (lines delimited by `'\n'`). -/
def lineStartOffset : List Char → Nat → Nat
  | _, 0 => 0
  | [], _ + 1 => 0
  | c :: cs, n + 1 =>
      if c = '\n' then 1 + lineStartOffset cs n else 1 + lineStartOffset cs (n + 1)

/-- (line, column) coordinates of the character offset `off` in `text`. -/
def offsetToPos (text : List Char) (off : Nat) : EdPosition :=
  { line := (text.take off).count '\n',
    column := ((text.take off).reverse.takeWhile (fun c => c != '\n')).length }

/-- Modelled from the spec: `types::Range::as_relative` — the (line, column)
range as `(start character offset, length)` against the given content (§4.C:
"positions are translated from (line,col) to character offsets against the
current content"). -/
def EdRange.as_relative (r : EdRange) (text : List Char) : Nat × Nat :=
  let start := lineStartOffset text r.anchor.line + r.anchor.column
  let stop := lineStartOffset text r.head.line + r.head.column
  (start, stop - start)

/-- The loop of the modelled `EditorTextDelta::from_delta`: a running
character position on the base text; `retain` advances it, a `delete` becomes
a non-empty range, an `insert` an empty range at the current position. -/
def fromDeltaGo (text : List Char) : List TextOp → Nat → List EdOp
  | [], _ => []
  | .retain n :: t, pos => fromDeltaGo text t (pos + n)
  | .delete n :: t, pos =>
      { range := { anchor := offsetToPos text pos, head := offsetToPos text (pos + n) },
        replacement := [] } :: fromDeltaGo text t (pos + n)
  | .insert s :: t, pos =>
      { range := { anchor := offsetToPos text pos, head := offsetToPos text pos },
        replacement := s } :: fromDeltaGo text t pos

/-- Modelled from the spec: `types::EditorTextDelta::from_delta` — convert a
text delta to range-replacements against the base string (§3: "The two forms
are isomorphic given a base string").  Ranges refer to the base content; the
running offset of `apply_delta_to_doc` translates them to current-content
positions. -/
def EditorTextDelta.from_delta (d : TextDelta) (text : List Char) : EditorTextDelta :=
  fromDeltaGo text d 0

/-- Semantics of a text delta on content: `retain` copies, `delete` skips,
`insert` emits; content past the delta's base length is kept. -/
def applyTextDelta : List TextOp → List Char → List Char
  | [], cs => cs
  | .retain n :: t, cs => cs.take n ++ applyTextDelta t (cs.drop n)
  | .delete n :: t, cs => applyTextDelta t (cs.drop n)
  | .insert s :: t, cs => s ++ applyTextDelta t cs

/-- The `Document` wrapper of daemon.rs around the automerge `AutoCommit`.
Modelled from the spec as far as automerge is concerned: the replica holds at
most one text object at the well-known key `"text"` (§3 "CRDT replica"). -/
structure Document where
  text : Option (List Char) := none
deriving DecidableEq, Repr

/-- `Document::text_obj`: `Err` when the document has no text object at key
`"text"`. -/
def Document.text_obj (d : Document) : Except String (List Char) :=
  match d.text with
  | some t => .ok t
  | none => .error "Automerge document doesn't have a text object, so I can't provide it"

/-- `Document::current_content`: maps `text_obj` to the text it denotes. -/
def Document.current_content (d : Document) : Except String (List Char) :=
  d.text_obj

/-- Modelled from the spec: automerge `splice_text` (§4.C "splice"): at
character offset `pos`, delete `del` characters and insert `s`; out-of-range
offsets are an automerge error (callers `expect` on it, hence `none`). -/
def spliceText (text : List Char) (pos : Nat) (del : Nat) (s : List Char) :
    Option (List Char) :=
  if pos + del ≤ text.length then
    some (text.take pos ++ s ++ text.drop (pos + del))
  else none

/-- The loop of `Document::apply_delta_to_doc`: ranges are resolved against
`base` (the content before the delta), a running `offset` translates them to
positions in the progressively spliced document.  A negative splice position
(`(start as i32 + offset) as usize` wrapping) or a failed splice is a panic,
hence `none`. -/
def applyDeltaGo (base : List Char) : List Char → List EdOp → Int → Option (List Char)
  | doc, [], _ => some doc
  | doc, op :: rest, offset =>
      let sl := op.range.as_relative base
      let posI : Int := (sl.1 : Int) + offset
      if posI < 0 then none
      else match spliceText doc posI.toNat sl.2 op.replacement with
        | some doc' =>
            applyDeltaGo base doc' rest (offset - (sl.2 : Int) + (op.replacement.length : Int))
        | none => none

/-- `Document::apply_delta_to_doc`: panics (`none`) when the text object is
missing, otherwise splices every range-replacement with the running
offset. -/
def Document.apply_delta_to_doc (d : Document) (delta : EditorTextDelta) : Option Document :=
  match d.text with
  | none => none
  | some text => (applyDeltaGo text text delta 0).map (fun t => { text := some t })

/-- `Document::initialize_text`: installs the text object with the given
content. -/
def Document.initialize_text (_d : Document) (text : List Char) : Document :=
  { text := some text }

/-- Modelled from the spec: automerge
`receive_sync_message_log_patches` (§4.C `receive_sync`): advance the
document by the message and report the patches describing the change.  A
sync message is modelled as the list of text-delta patches it applies; a
message that changes nothing is the empty list. -/
def Document.receive_sync_message_log_patches (d : Document) (m : List TextDelta) :
    Document × List TextDelta :=
  match m with
  | [] => (d, [])
  | patches =>
      ({ text := some (patches.foldl (fun t p => applyTextDelta p t) (d.text.getD [])) },
       patches)

/-- `Document::receive_sync_message`: same document effect, patches not
collected. -/
def Document.receive_sync_message (d : Document) (m : List TextDelta) : Document :=
  (d.receive_sync_message_log_patches m).1

/-- Modelled from the spec: the daemon crate's own `ot::OTServer` (it is not
among the sources); per §3 "OT state" it carries the revision pair and the
queue of unacknowledged daemon deltas, plus the document needed for
delta-form conversions. -/
structure DaemonOTServer where
  editor_revision : Nat := 0
  daemon_revision : Nat := 0
  editor_queue : List TextDelta := []
  document : List Char := []
deriving DecidableEq, Repr

/-- `OTServer::new(content)` of the daemon crate (modelled). -/
def DaemonOTServer.new (content : List Char) : DaemonOTServer := { document := content }

/-- Fold a text delta into an `OperationSeq` through the builders. -/
def textDeltaToSeq (d : TextDelta) : OperationSeq :=
  d.foldl
    (fun seq op =>
      match op with
      | .retain n => seq.retain n
      | .insert s => seq.insert s
      | .delete n => seq.delete n)
    OperationSeq.default

/-- Read an `OperationSeq` back as a text delta. -/
def seqToTextDelta (seq : OperationSeq) : TextDelta :=
  seq.ops.map
    (fun op =>
      match op with
      | .Retain n => TextOp.retain n
      | .Delete n => TextOp.delete n
      | .Insert s => TextOp.insert s)

/-- Modelled from the spec: conversion of an editor delta to a text delta
against a base content (§3 isomorphism), used at the daemon OT boundary. -/
def edDeltaToTextDeltaGo (text : List Char) : List EdOp → Nat → TextDelta
  | [], _ => []
  | op :: rest, pos =>
      let sl := op.range.as_relative text
      .retain (sl.1 - pos) :: .delete sl.2 :: .insert op.replacement ::
        edDeltaToTextDeltaGo text rest (sl.1 + sl.2)

/-- Modelled from the spec: editor-delta to text-delta conversion. -/
def edDeltaToTextDelta (ed : EditorTextDelta) (text : List Char) : TextDelta :=
  edDeltaToTextDeltaGo text ed 0

/-- Modelled from the spec: transform one editor text delta through the
queued daemon deltas (§4.B transform semantics: pad base lengths with a
trailing retain, then the standard transform, editor op as the "their"
argument). -/
def daemonTransformThrough : TextDelta → List TextDelta → Option (TextDelta × List TextDelta)
  | their, [] => some (their, [])
  | their, mine :: rest =>
      let myS := textDeltaToSeq mine
      let theirS := textDeltaToSeq their
      let myS' := if myS.base_len < theirS.base_len
        then myS.retain (theirS.base_len - myS.base_len) else myS
      let theirS' := if myS.base_len < theirS.base_len
        then theirS else theirS.retain (myS.base_len - theirS.base_len)
      match myS'.transform theirS' with
      | some p =>
          (daemonTransformThrough (seqToTextDelta p.2) rest).map
            (fun q => (q.1, seqToTextDelta p.1 :: q.2))
      | none => none

/-- Modelled from the spec: daemon `OTServer::apply_crdt_change` (§4.B):
append to the queue, bump `daemon_revision`, and return the revisioned delta
for the editor at the current `editor_revision`. -/
def DaemonOTServer.apply_crdt_change (srv : DaemonOTServer) (delta : TextDelta) :
    DaemonOTServer × RevisionedEditorTextDelta :=
  ({ srv with daemon_revision := srv.daemon_revision + 1,
              editor_queue := srv.editor_queue ++ [delta],
              document := applyTextDelta delta srv.document },
   { revision := srv.editor_revision,
     delta := EditorTextDelta.from_delta delta srv.document })

/-- Modelled from the spec: daemon `OTServer::apply_editor_operation` (§4.B):
fatal (`none`) on a revision from the future or an over-acknowledged queue;
otherwise drop the acknowledged prefix, transform through the remaining
queue, bump `editor_revision`, and return the delta for the CRDT and the
rebased queue for the editor. -/
def DaemonOTServer.apply_editor_operation (srv : DaemonOTServer)
    (rd : RevisionedEditorTextDelta) :
    Option (DaemonOTServer × TextDelta × List RevisionedEditorTextDelta) :=
  if rd.revision > srv.daemon_revision then none
  else
    let k := srv.daemon_revision - rd.revision
    if srv.editor_queue.length < k then none
    else
      let queue := srv.editor_queue.drop (srv.editor_queue.length - k)
      let incoming := edDeltaToTextDelta rd.delta srv.document
      match daemonTransformThrough incoming queue with
      | some p =>
          let rev' := srv.editor_revision + 1
          some ({ srv with editor_revision := rev',
                           editor_queue := p.2,
                           document := applyTextDelta p.1 srv.document },
                p.1,
                p.2.map (fun q =>
                  { revision := rev', delta := EditorTextDelta.from_delta q srv.document }))
      | none => none

/-- `DocMessage` of daemon.rs.  `RandomEdit` carries the randomly generated
delta as an oracle (the RNG draw of `random_delta`); reply channels are
modelled by the effects record below; automerge sync messages and peer sync
states are modelled as above. -/
inductive DocMessage where
  | GetContent
  | Open
  | Close
  | RandomEdit (delta : TextDelta)
  | RevDelta (rd : RevisionedEditorTextDelta)
  | Delta (delta : TextDelta)
  | ReceiveSyncMessage (m : List TextDelta)
  | GenerateSyncMessage
  | NewEditorConnection (handle : Nat)
deriving DecidableEq, Repr

deriving instance DecidableEq for Except

/-- Observable effects of handling one actor message: number of change-pings
published on the broadcast channel, messages pushed to editor handles
(handle id, revisioned delta), and the reply sent for `GetContent`. -/
structure ActorEffects where
  pings : Nat := 0
  editor_msgs : List (Nat × RevisionedEditorTextDelta) := []
  content_reply : Option (Except String (List Char)) := none
deriving DecidableEq, Repr

/-- `DocumentActor` state: the editor-handle map (`HashMap<EditorId,
EditorHandle>` as an association list, handles modelled by ids), the
optional OT reconciler, and the CRDT document.  The file path plays no role
in the handled messages. -/
structure DocumentActor where
  editor_clients : List (Nat × Nat) := []
  ot_server : Option DaemonOTServer := none
  crdt_doc : Document := {}
deriving DecidableEq, Repr

/-- `HashMap::insert`: replace the value under an existing key, else append. -/
def insertClient : List (Nat × Nat) → Nat → Nat → List (Nat × Nat)
  | [], k, v => [(k, v)]
  | kv :: rest, k, v =>
      if kv.1 = k then (k, v) :: rest else kv :: insertClient rest k v

/-- `DocumentActor::send_to_editors`: push the revisioned delta to every
registered editor handle (the `uri` wrapper of the protocol message is not
modelled). -/
def sendToEditors (clients : List (Nat × Nat)) (rd : RevisionedEditorTextDelta) :
    List (Nat × RevisionedEditorTextDelta) :=
  clients.map (fun c => (c.2, rd))

/-- `DocumentActor::process_crdt_delta_in_ot`: if an OT server exists, feed
the delta as a CRDT change and send the result to all editors. -/
def DocumentActor.process_crdt_delta_in_ot (a : DocumentActor) (delta : TextDelta) :
    DocumentActor × List (Nat × RevisionedEditorTextDelta) :=
  match a.ot_server with
  | some ot =>
      let p := ot.apply_crdt_change delta
      ({ a with ot_server := some p.1 }, sendToEditors a.editor_clients p.2)
  | none => (a, [])

/-- `DocumentActor::process_crdt_patches_in_ot` (patch-to-delta conversion is
the identity in the model). -/
def DocumentActor.process_crdt_patches_in_ot :
    DocumentActor → List TextDelta → DocumentActor × List (Nat × RevisionedEditorTextDelta)
  | a, [] => (a, [])
  | a, p :: rest =>
      let r1 := a.process_crdt_delta_in_ot p
      let r2 := r1.1.process_crdt_patches_in_ot rest
      (r2.1, r1.2 ++ r2.2)

/-- Common body of the `RandomEdit` and `Delta` branches of
`handle_message`: read the content (`expect`), convert, apply to the CRDT
(one change-ping, from `DocumentActor::apply_delta_to_doc`), then feed the
OT server. -/
def DocumentActor.applyDeltaMessage (a : DocumentActor) (delta : TextDelta) :
    Option (DocumentActor × ActorEffects) :=
  match a.crdt_doc.current_content with
  | .error _ => none
  | .ok text =>
      let ed_delta := EditorTextDelta.from_delta delta text
      match a.crdt_doc.apply_delta_to_doc ed_delta with
      | none => none
      | some doc' =>
          let r := DocumentActor.process_crdt_delta_in_ot { a with crdt_doc := doc' } delta
          some (r.1, { pings := 1, editor_msgs := r.2 })

/-- `DocumentActor::handle_message`.  Rust `expect`/missing-state panics are
`none`; the change-ping sends of `apply_delta_to_doc` and
`apply_sync_message_to_doc` are counted in the effects. -/
def DocumentActor.handle_message (a : DocumentActor) (msg : DocMessage) :
    Option (DocumentActor × ActorEffects) :=
  match msg with
  | .GetContent => some (a, { content_reply := some a.crdt_doc.current_content })
  | .Open =>
      match a.crdt_doc.current_content with
      | .ok c => some ({ a with ot_server := some (DaemonOTServer.new c) }, {})
      | .error _ => none
  | .Close => some ({ a with ot_server := none }, {})
  | .RandomEdit delta => a.applyDeltaMessage delta
  | .Delta delta => a.applyDeltaMessage delta
  | .RevDelta rd =>
      match a.crdt_doc.current_content with
      | .error _ => none
      | .ok text =>
          match a.ot_server with
          | none => none
          | some ot =>
              match ot.apply_editor_operation rd with
              | none => none
              | some r =>
                  let editor_delta := EditorTextDelta.from_delta r.2.1 text
                  match a.crdt_doc.apply_delta_to_doc editor_delta with
                  | none => none
                  | some doc' =>
                      some ({ a with crdt_doc := doc', ot_server := some r.1 },
                            { pings := 1,
                              editor_msgs :=
                                r.2.2.flatMap (sendToEditors a.editor_clients) })
  | .ReceiveSyncMessage m =>
      match a.ot_server with
      | some _ =>
          let pr := a.crdt_doc.receive_sync_message_log_patches m
          let r := DocumentActor.process_crdt_patches_in_ot { a with crdt_doc := pr.1 } pr.2
          some (r.1, { pings := 1, editor_msgs := r.2 })
      | none =>
          some ({ a with crdt_doc := a.crdt_doc.receive_sync_message m }, { pings := 1 })
  | .GenerateSyncMessage => some (a, {})
  | .NewEditorConnection h =>
      some ({ a with editor_clients := insertClient a.editor_clients 0 h }, {})

/-- Whether a message kind mutates the CRDT document path of
`handle_message` (the branches that splice or receive sync traffic). -/
def DocMessage.isMutatingKind : DocMessage → Bool
  | .RandomEdit _ | .Delta _ | .RevDelta _ | .ReceiveSyncMessage _ => true
  | _ => false

/-- Actor states reachable from a fresh actor (joiner: empty replica; host:
text initialized from the file) by handled messages. -/
inductive DocumentActor.Reachable : DocumentActor → Prop where
  | start : DocumentActor.Reachable {}
  | startHost (t : List Char) : DocumentActor.Reachable { crdt_doc := { text := some t } }
  | step {a a' : DocumentActor} {m : DocMessage} {eff : ActorEffects} :
      DocumentActor.Reachable a → a.handle_message m = some (a', eff) →
      DocumentActor.Reachable a'

/-! ### `src/daemon/src/peer.rs`: the TCP frame reader -/

/-- The `i32::from_be_bytes` value of the four length bytes, after the Rust
cast `as usize` (sign-extension into a 64-bit word). -/
def lenAsUsize (b0 b1 b2 b3 : UInt8) : Nat :=
  let u : Nat := b0.toNat * 2 ^ 24 + b1.toNat * 2 ^ 16 + b2.toNat * 2 ^ 8 + b3.toNat
  if u < 2 ^ 31 then u else 2 ^ 64 - (2 ^ 32 - u)

/-- Outcome of one `TCPReadActor::read_message` call: a decoded payload with
the remaining stream, an `Err` from `read_exact` (EOF or I/O error, the `?`
path), or a Rust panic from `vec![0; message_len as usize]` when the length
exceeds `isize::MAX` (capacity overflow). -/
inductive ReadOutcome where
  | ok (payload rest : List UInt8)
  | ioError
  | allocFailed
deriving DecidableEq, Repr

/-- `TCPReadActor::read_message` on a byte stream. -/
def read_message (bytes : List UInt8) : ReadOutcome :=
  match bytes with
  | b0 :: b1 :: b2 :: b3 :: rest =>
      let len := lenAsUsize b0 b1 b2 b3
      if 2 ^ 63 - 1 < len then .allocFailed
      else if rest.length < len then .ioError
      else .ok (rest.take len) (rest.drop len)
  | _ => .ioError

/-- The loop of `TCPReadActor::run`: forward payloads while reads are `Ok`;
an `Err` ends the loop and reaches `self.shutdown_token.cancel()`; a panic
unwinds out of the task and the cancel is never executed.  `fuel` bounds the
iterations (each `Ok` consumes at least the four length bytes). -/
def runReaderGo : Nat → List UInt8 → List (List UInt8) × Bool
  | 0, _ => ([], false)
  | fuel + 1, bytes =>
      match read_message bytes with
      | .ok payload rest =>
          let r := runReaderGo fuel rest
          (payload :: r.1, r.2)
      | .ioError => ([], true)
      | .allocFailed => ([], false)

/-- `TCPReadActor::run` on a byte stream: the forwarded payloads, and whether
the shared shutdown token was cancelled. -/
def runReader (bytes : List UInt8) : List (List UInt8) × Bool :=
  runReaderGo (bytes.length + 1) bytes

/-! ### Concrete inputs used when settling the claims -/

/-- A single-element insert `Op`, as built by the `dummy_insert` test helper
of ot.rs (with a configurable replacement). -/
def insertOpAt (column : Nat) (s : List Char) : Op :=
  { v := [{ range := { anchor := { line := 0, column := column },
                       head := { line := 0, column := column } },
            replacement := s }] }

/-- Witness operation `a` (the editor delta) for the transform commutation:
`retain 2, insert "x", retain 1` from the `ot_transform_does_what_we_think`
test of ot.rs. -/
def wC1a : OperationSeq :=
  { ops := [.Retain 2, .Insert ['x'], .Retain 1], base_len := 3, target_len := 4 }

/-- Witness operation `b` (the queued daemon op): `retain 1, delete 2`. -/
def wC1b : OperationSeq :=
  { ops := [.Retain 1, .Delete 2], base_len := 3, target_len := 1 }

/-- Transform output `b'` of `wC1b.transform wC1a`. -/
def wC1bP : OperationSeq :=
  { ops := [.Retain 1, .Delete 1, .Retain 1, .Delete 1], base_len := 4, target_len := 2 }

/-- Transform output `a'` of `wC1b.transform wC1a`. -/
def wC1aP : OperationSeq :=
  { ops := [.Retain 1, .Insert ['x']], base_len := 1, target_len := 2 }

/-- Witness base string for the transform commutation. -/
def wC1s : List Char := ['a', 'b', 'c']

/-- Fresh prototype server over the empty document. -/
def c2_s0 : OTServer := OTServer.new_with_doc []

/-- After one CRDT change (`insert "a"` at 0). -/
def c2_s1 : OTServer := (c2_s0.apply_crdt_change (insertOpAt 0 ['a'])).getD c2_s0

/-- After a second CRDT change (`insert "b"` at 0); `daemon_revision = 2`,
queue length 2. -/
def c2_s2 : OTServer := (c2_s1.apply_crdt_change (insertOpAt 0 ['b'])).getD c2_s1

/-- After the editor acknowledges revision 1 with `insert "x"` at 0: the
queue shrinks to length 1 while `daemon_revision` stays 2. -/
def c2_s3 : OTServer :=
  match c2_s2.apply_editor_operation 1 (insertOpAt 0 ['x']) with
  | .ok s => s
  | _ => c2_s2

/-- Server with `daemon_revision = 3` and three queued ops (three CRDT
changes on the empty document). -/
def c3_state : OTServer :=
  let s0 := OTServer.new_with_doc []
  let s1 := (s0.apply_crdt_change (insertOpAt 0 ['a'])).getD s0
  let s2 := (s1.apply_crdt_change (insertOpAt 0 ['b'])).getD s1
  (s2.apply_crdt_change (insertOpAt 0 ['c'])).getD s2

/-- Result of `c3_state.apply_editor_operation 1 (insert "x" at 0)`. -/
def c3_post : OTServer :=
  match c3_state.apply_editor_operation 1 (insertOpAt 0 ['x']) with
  | .ok s => s
  | _ => c3_state

/-- The queued daemon ops of the `transforms_operation_correctly` test:
`insert "foo"` at 0 and `insert "foo"` at 3. -/
def c4_ours : List Op := [insertOpAt 0 ['f', 'o', 'o'], insertOpAt 3 ['f', 'o', 'o']]

/-- The editor op of that test: `insert "bar"` at 0. -/
def c4_theirs : Op := insertOpAt 0 ['b', 'a', 'r']

/-- Actor with an initialized (empty) text object and no editor attached. -/
def c6_state : DocumentActor := { crdt_doc := { text := some [] } }

/-- A peer frame whose 4-byte big-endian signed length prefix is `-1`. -/
def c7_negFrame : List UInt8 := [0xff, 0xff, 0xff, 0xff]

/-- A stream that ends mid-frame: length prefix 5, only two payload bytes. -/
def c7_shortFrame : List UInt8 := [0x00, 0x00, 0x00, 0x05, 0x61, 0x62]

/-- Base content of the multi-op delta scenario. -/
def c8_initial : List Char := "To be or not to be, that is the question".toList

/-- The text delta of the multi-op scenario. -/
def c8_delta : TextDelta :=
  [.retain 3, .insert ['m'], .delete 1, .retain 5, .delete 4, .retain 3,
   .delete 2, .insert ['y', 'o', 'u']]

/-- Expected content after the multi-op delta. -/
def c8_expected : List Char := "To me or to you, that is the question".toList

/-- Actor with no text object yet: a joiner daemon before the first sync
message has arrived. -/
def c10_state : DocumentActor := {}

/-- `c6_state` after a `NewEditorConnection 7`. -/
def c9_after : DocumentActor :=
  { crdt_doc := { text := some [] }, editor_clients := [(0, 7)] }

/-! ## Theorems

First the lemmas leading to the transform commutation (claim C1): the merging
accumulator builders only normalize the primitive list, they do not change
its `applyOps` semantics; the faithful loop `transformGo` therefore agrees
with the direct recursion `transformRec`; and `transformRec` satisfies the
transformation property. -/

theorem applyOps_append_retain_zero (ops tail : List OTOperation) :
    ∀ cs, applyOps (ops ++ OTOperation.Retain 0 :: tail) cs = applyOps (ops ++ tail) cs := by
  induction ops with
  | nil => intro cs; simp [applyOps]
  | cons x xs ih => intro cs; cases x <;> simp [applyOps, ih]

theorem applyOps_append_delete_zero (ops tail : List OTOperation) :
    ∀ cs, applyOps (ops ++ OTOperation.Delete 0 :: tail) cs = applyOps (ops ++ tail) cs := by
  induction ops with
  | nil => intro cs; simp [applyOps]
  | cons x xs ih => intro cs; cases x <;> simp [applyOps, ih]

theorem applyOps_append_insert_nil (ops tail : List OTOperation) :
    ∀ cs, applyOps (ops ++ OTOperation.Insert [] :: tail) cs = applyOps (ops ++ tail) cs := by
  induction ops with
  | nil => intro cs; simp [applyOps]
  | cons x xs ih => intro cs; cases x <;> simp [applyOps, ih]

theorem applyOps_pushRetain (ops : List OTOperation) (n : Nat) :
    ∀ tail cs, applyOps (pushRetain ops n ++ tail) cs
      = applyOps (ops ++ OTOperation.Retain n :: tail) cs := by
  induction ops, n using pushRetain.induct with
  | case1 => intro tail cs; rfl
  | case2 m n =>
    intro tail cs
    simp [pushRetain, applyOps, List.take_add, ← List.drop_drop, List.append_assoc]
  | case3 x xs n hne ih =>
    intro tail cs
    have hunf : pushRetain (x :: xs) n = x :: pushRetain xs n := by
      cases x with
      | Retain m =>
        cases xs with
        | nil => exact (hne m rfl rfl).elim
        | cons y ys => rfl
      | Delete d => cases xs <;> rfl
      | Insert t => cases xs <;> rfl
    rw [hunf]
    cases x <;> simp [applyOps, ih]

theorem applyOps_pushDelete (ops : List OTOperation) (n : Nat) :
    ∀ tail cs, applyOps (pushDelete ops n ++ tail) cs
      = applyOps (ops ++ OTOperation.Delete n :: tail) cs := by
  induction ops, n using pushDelete.induct with
  | case1 => intro tail cs; rfl
  | case2 m n =>
    intro tail cs
    simp [pushDelete, applyOps, ← List.drop_drop]
  | case3 x xs n hne ih =>
    intro tail cs
    have hunf : pushDelete (x :: xs) n = x :: pushDelete xs n := by
      cases x with
      | Delete m =>
        cases xs with
        | nil => exact (hne m rfl rfl).elim
        | cons y ys => rfl
      | Retain d => cases xs <;> rfl
      | Insert t => cases xs <;> rfl
    rw [hunf]
    cases x <;> simp [applyOps, ih]

theorem applyOps_pushInsert (ops : List OTOperation) (s : List Char) :
    ∀ tail cs, applyOps (pushInsert ops s ++ tail) cs
      = applyOps (ops ++ OTOperation.Insert s :: tail) cs := by
  induction ops, s using pushInsert.induct with
  | case1 => intro tail cs; rfl
  | case2 t s => intro tail cs; simp [pushInsert, applyOps]
  | case3 t d s => intro tail cs; simp [pushInsert, applyOps]
  | case4 d s => intro tail cs; simp [pushInsert, applyOps]
  | case5 x xs s h1 h2 h3 ih =>
    intro tail cs
    have hunf : pushInsert (x :: xs) s = x :: pushInsert xs s := by
      cases x with
      | Retain m =>
        cases xs with
        | nil => rfl
        | cons y ys => cases y <;> cases ys <;> rfl
      | Delete d =>
        cases xs with
        | nil => exact (h3 d rfl rfl).elim
        | cons y ys => cases y <;> cases ys <;> rfl
      | Insert t =>
        cases xs with
        | nil => exact (h1 t rfl rfl).elim
        | cons y ys =>
          cases y with
          | Delete d =>
            cases ys with
            | nil => exact (h2 t d rfl rfl).elim
            | cons z zs => rfl
          | Retain r => cases ys <;> rfl
          | Insert u => cases ys <;> rfl
    rw [hunf]
    cases x <;> simp [applyOps, ih]

theorem retain_ops_apply (seq : OperationSeq) (n : Nat) (tail : List OTOperation)
    (cs : List Char) :
    applyOps ((seq.retain n).ops ++ tail) cs
      = applyOps (seq.ops ++ OTOperation.Retain n :: tail) cs := by
  by_cases h : n = 0
  · subst h
    simp [OperationSeq.retain, applyOps_append_retain_zero]
  · simp [OperationSeq.retain, h, applyOps_pushRetain]

theorem delete_ops_apply (seq : OperationSeq) (n : Nat) (tail : List OTOperation)
    (cs : List Char) :
    applyOps ((seq.delete n).ops ++ tail) cs
      = applyOps (seq.ops ++ OTOperation.Delete n :: tail) cs := by
  by_cases h : n = 0
  · subst h
    simp [OperationSeq.delete, applyOps_append_delete_zero]
  · simp [OperationSeq.delete, h, applyOps_pushDelete]

theorem insert_ops_apply (seq : OperationSeq) (s : List Char) (tail : List OTOperation)
    (cs : List Char) :
    applyOps ((seq.insert s).ops ++ tail) cs
      = applyOps (seq.ops ++ OTOperation.Insert s :: tail) cs := by
  by_cases h : s = []
  · subst h
    simp [OperationSeq.insert, applyOps_append_insert_nil]
  · simp [OperationSeq.insert, h, applyOps_pushInsert]

theorem transformGo_toRec :
    ∀ fuel (aP bP : OperationSeq) (o1 o2 : List OTOperation) (aF bF : OperationSeq),
      transformGo fuel aP bP o1 o2 = some (aF, bF) →
      ∃ aR bR, transformRec fuel o1 o2 = some (aR, bR) ∧
        (∀ tail cs, applyOps (aF.ops ++ tail) cs = applyOps (aP.ops ++ (aR ++ tail)) cs) ∧
        (∀ tail cs, applyOps (bF.ops ++ tail) cs = applyOps (bP.ops ++ (bR ++ tail)) cs) := by
  intro fuel aP bP o1 o2
  induction fuel, aP, bP, o1, o2 using transformGo.induct with
  | case1 aP bP o1 o2 =>
    intro aF bF h
    simp [transformGo] at h
  | case2 n aP bP =>
    intro aF bF h
    simp [transformGo] at h
    refine ⟨[], [], by simp [transformRec], ?_, ?_⟩ <;> intro tail cs <;>
      simp [h.1.symm, h.2.symm]
  | case3 fuel aP bP s t1 o2 ih =>
    intro aF bF h
    simp only [transformGo] at h
    obtain ⟨aR, bR, hrec, hA, hB⟩ := ih aF bF h
    refine ⟨.Insert s :: aR, .Retain s.length :: bR, by simp [transformRec, hrec], ?_, ?_⟩
    · intro tail cs
      rw [hA tail cs, insert_ops_apply]
      simp
    · intro tail cs
      rw [hB tail cs, retain_ops_apply]
      simp
  | case4 fuel aP bP o1 s t2 hno ih =>
    intro aF bF h
    have hred : transformGo (fuel + 1) aP bP o1 (OTOperation.Insert s :: t2)
        = transformGo fuel (aP.retain s.length) (bP.insert s) o1 t2 := by
      cases o1 with
      | nil => rfl
      | cons y t1 =>
        cases y with
        | Insert u => exact (hno u t1 rfl).elim
        | Retain i => rfl
        | Delete i => rfl
    have hredR : transformRec (fuel + 1) o1 (OTOperation.Insert s :: t2)
        = (transformRec fuel o1 t2).map
            (fun p => (OTOperation.Retain s.length :: p.1, OTOperation.Insert s :: p.2)) := by
      cases o1 with
      | nil => rfl
      | cons y t1 =>
        cases y with
        | Insert u => exact (hno u t1 rfl).elim
        | Retain i => rfl
        | Delete i => rfl
    rw [hred] at h
    obtain ⟨aR, bR, hrec, hA, hB⟩ := ih aF bF h
    refine ⟨.Retain s.length :: aR, .Insert s :: bR, by simp [hredR, hrec], ?_, ?_⟩
    · intro tail cs
      rw [hA tail cs, retain_ops_apply]
      simp
    · intro tail cs
      rw [hB tail cs, insert_ops_apply]
      simp
  | case5 n aP bP o2 hne hni =>
    intro aF bF h
    cases o2 with
    | nil => exact (hne rfl).elim
    | cons y t2 =>
      cases y with
      | Insert s => exact (hni s t2 rfl).elim
      | Retain j => simp [transformGo] at h
      | Delete j => simp [transformGo] at h
  | case6 n aP bP o1 hne hni hne2 =>
    intro aF bF h
    cases o1 with
    | nil => exact (hne rfl).elim
    | cons y t1 =>
      cases y with
      | Insert s => exact (hni s t1 rfl).elim
      | Retain i => simp [transformGo] at h
      | Delete i => simp [transformGo] at h
  | case7 fuel aP bP i t1 j t2 hlt ih =>
    intro aF bF h
    simp only [transformGo, if_pos hlt] at h
    obtain ⟨aR, bR, hrec, hA, hB⟩ := ih aF bF h
    refine ⟨.Retain i :: aR, .Retain i :: bR, by simp [transformRec, if_pos hlt, hrec], ?_, ?_⟩
    · intro tail cs
      rw [hA tail cs, retain_ops_apply]
      simp
    · intro tail cs
      rw [hB tail cs, retain_ops_apply]
      simp
  | case8 fuel aP bP i t1 j t2 hnlt hgt ih =>
    intro aF bF h
    simp only [transformGo, if_neg hnlt, if_pos hgt] at h
    obtain ⟨aR, bR, hrec, hA, hB⟩ := ih aF bF h
    refine ⟨.Retain j :: aR, .Retain j :: bR,
      by simp [transformRec, if_neg hnlt, if_pos hgt, hrec], ?_, ?_⟩
    · intro tail cs
      rw [hA tail cs, retain_ops_apply]
      simp
    · intro tail cs
      rw [hB tail cs, retain_ops_apply]
      simp
  | case9 fuel aP bP i t1 j t2 hnlt hngt ih =>
    intro aF bF h
    simp only [transformGo, if_neg hnlt, if_neg hngt] at h
    obtain ⟨aR, bR, hrec, hA, hB⟩ := ih aF bF h
    refine ⟨.Retain i :: aR, .Retain i :: bR,
      by simp [transformRec, if_neg hnlt, if_neg hngt, hrec], ?_, ?_⟩
    · intro tail cs
      rw [hA tail cs, retain_ops_apply]
      simp
    · intro tail cs
      rw [hB tail cs, retain_ops_apply]
      simp
  | case10 fuel aP bP i t1 j t2 hlt ih =>
    intro aF bF h
    simp only [transformGo, if_pos hlt] at h
    obtain ⟨aR, bR, hrec, hA, hB⟩ := ih aF bF h
    exact ⟨aR, bR, by simp [transformRec, if_pos hlt, hrec], hA, hB⟩
  | case11 fuel aP bP i t1 j t2 hnlt hgt ih =>
    intro aF bF h
    simp only [transformGo, if_neg hnlt, if_pos hgt] at h
    obtain ⟨aR, bR, hrec, hA, hB⟩ := ih aF bF h
    exact ⟨aR, bR, by simp [transformRec, if_neg hnlt, if_pos hgt, hrec], hA, hB⟩
  | case12 fuel aP bP i t1 j t2 hnlt hngt ih =>
    intro aF bF h
    simp only [transformGo, if_neg hnlt, if_neg hngt] at h
    obtain ⟨aR, bR, hrec, hA, hB⟩ := ih aF bF h
    exact ⟨aR, bR, by simp [transformRec, if_neg hnlt, if_neg hngt, hrec], hA, hB⟩
  | case13 fuel aP bP i t1 j t2 hlt ih =>
    intro aF bF h
    simp only [transformGo, if_pos hlt] at h
    obtain ⟨aR, bR, hrec, hA, hB⟩ := ih aF bF h
    refine ⟨.Delete i :: aR, bR, by simp [transformRec, if_pos hlt, hrec], ?_, hB⟩
    intro tail cs
    rw [hA tail cs, delete_ops_apply]
    simp
  | case14 fuel aP bP i t1 j t2 hnlt hgt ih =>
    intro aF bF h
    simp only [transformGo, if_neg hnlt, if_pos hgt] at h
    obtain ⟨aR, bR, hrec, hA, hB⟩ := ih aF bF h
    refine ⟨.Delete j :: aR, bR,
      by simp [transformRec, if_neg hnlt, if_pos hgt, hrec], ?_, hB⟩
    intro tail cs
    rw [hA tail cs, delete_ops_apply]
    simp
  | case15 fuel aP bP i t1 j t2 hnlt hngt ih =>
    intro aF bF h
    simp only [transformGo, if_neg hnlt, if_neg hngt] at h
    obtain ⟨aR, bR, hrec, hA, hB⟩ := ih aF bF h
    refine ⟨.Delete i :: aR, bR,
      by simp [transformRec, if_neg hnlt, if_neg hngt, hrec], ?_, hB⟩
    intro tail cs
    rw [hA tail cs, delete_ops_apply]
    simp
  | case16 fuel aP bP i t1 j t2 hlt ih =>
    intro aF bF h
    simp only [transformGo, if_pos hlt] at h
    obtain ⟨aR, bR, hrec, hA, hB⟩ := ih aF bF h
    refine ⟨aR, .Delete i :: bR, by simp [transformRec, if_pos hlt, hrec], hA, ?_⟩
    intro tail cs
    rw [hB tail cs, delete_ops_apply]
    simp
  | case17 fuel aP bP i t1 j t2 hnlt hgt ih =>
    intro aF bF h
    simp only [transformGo, if_neg hnlt, if_pos hgt] at h
    obtain ⟨aR, bR, hrec, hA, hB⟩ := ih aF bF h
    refine ⟨aR, .Delete j :: bR,
      by simp [transformRec, if_neg hnlt, if_pos hgt, hrec], hA, ?_⟩
    intro tail cs
    rw [hB tail cs, delete_ops_apply]
    simp
  | case18 fuel aP bP i t1 j t2 hnlt hngt ih =>
    intro aF bF h
    simp only [transformGo, if_neg hnlt, if_neg hngt] at h
    obtain ⟨aR, bR, hrec, hA, hB⟩ := ih aF bF h
    refine ⟨aR, .Delete j :: bR,
      by simp [transformRec, if_neg hnlt, if_neg hngt, hrec], hA, ?_⟩
    intro tail cs
    rw [hB tail cs, delete_ops_apply]
    simp

theorem applyOps_retain_chunk (rest : List OTOperation) (cs X : List Char) (i : Nat)
    (h : i ≤ cs.length) :
    applyOps (OTOperation.Retain i :: rest) (cs.take i ++ X)
      = cs.take i ++ applyOps rest X := by
  have hl : (cs.take i).length = i := by
    simp only [List.length_take]
    omega
  simp only [applyOps]
  congr 1
  · rw [List.take_append_of_le_length hl.ge]
    simp [List.take_take]
  · rw [List.drop_append_of_le_length hl.ge, List.drop_take]
    simp

theorem applyOps_delete_chunk (rest : List OTOperation) (cs X : List Char) (i : Nat)
    (h : i ≤ cs.length) :
    applyOps (OTOperation.Delete i :: rest) (cs.take i ++ X) = applyOps rest X := by
  have hl : (cs.take i).length = i := by
    simp only [List.length_take]
    omega
  simp only [applyOps]
  rw [List.drop_append_of_le_length hl.ge, List.drop_take]
  simp

theorem take_split (cs : List Char) (i j : Nat) (hij : i ≤ j) :
    cs.take j = cs.take i ++ (cs.drop i).take (j - i) := by
  have h : j = i + (j - i) := by omega
  calc cs.take j = cs.take (i + (j - i)) := by rw [← h]
    _ = cs.take i ++ (cs.drop i).take (j - i) := by rw [List.take_add]

theorem drop_split (cs : List Char) (i j : Nat) (hij : i ≤ j) :
    cs.drop j = (cs.drop i).drop (j - i) := by
  rw [List.drop_drop]
  congr 1
  omega

theorem transformRec_comm :
    ∀ fuel (o1 o2 aR bR : List OTOperation),
      transformRec fuel o1 o2 = some (aR, bR) →
      baseLen o1 = baseLen o2 →
      ∀ cs : List Char, cs.length = baseLen o1 →
      applyOps bR (applyOps o1 cs) = applyOps aR (applyOps o2 cs) := by
  intro fuel o1 o2
  induction fuel, o1, o2 using transformRec.induct with
  | case1 o1 o2 =>
    intro aR bR h
    simp [transformRec] at h
  | case2 n =>
    intro aR bR h hbase cs hlen
    simp only [transformRec, Option.some.injEq, Prod.mk.injEq] at h
    obtain ⟨h1, h2⟩ := h
    subst h1
    subst h2
    rfl
  | case3 fuel s t1 o2 ih =>
    intro aR bR h hbase cs hlen
    simp only [transformRec, Option.map_eq_some'] at h
    obtain ⟨⟨a, b⟩, hrec, heq⟩ := h
    injection heq with h1 h2
    subst h1
    subst h2
    simp only [baseLen] at hbase hlen
    simp only [applyOps]
    rw [List.take_left, List.drop_left]
    rw [ih a b hrec hbase cs hlen]
  | case4 fuel o1 s t2 hno ih =>
    intro aR bR h hbase cs hlen
    have hredR : transformRec (fuel + 1) o1 (OTOperation.Insert s :: t2)
        = (transformRec fuel o1 t2).map
            (fun p => (OTOperation.Retain s.length :: p.1, OTOperation.Insert s :: p.2)) := by
      cases o1 with
      | nil => rfl
      | cons y t1 =>
        cases y with
        | Insert u => exact (hno u t1 rfl).elim
        | Retain i => rfl
        | Delete i => rfl
    rw [hredR, Option.map_eq_some'] at h
    obtain ⟨⟨a, b⟩, hrec, heq⟩ := h
    injection heq with h1 h2
    subst h1
    subst h2
    simp only [baseLen] at hbase
    simp only [applyOps]
    rw [List.take_left, List.drop_left]
    rw [ih a b hrec hbase cs hlen]
  | case5 n o2 hne hni =>
    intro aR bR h
    cases o2 with
    | nil => exact (hne rfl).elim
    | cons y t2 =>
      cases y with
      | Insert s => exact (hni s t2 rfl).elim
      | Retain j => simp [transformRec] at h
      | Delete j => simp [transformRec] at h
  | case6 n o1 hne hni hne2 =>
    intro aR bR h
    cases o1 with
    | nil => exact (hne rfl).elim
    | cons y t1 =>
      cases y with
      | Insert s => exact (hni s t1 rfl).elim
      | Retain i => simp [transformRec] at h
      | Delete i => simp [transformRec] at h
  | case7 fuel i t1 j t2 hlt ih =>
    intro aR bR h hbase cs hlen
    simp only [transformRec, if_pos hlt, Option.map_eq_some'] at h
    obtain ⟨⟨a, b⟩, hrec, heq⟩ := h
    injection heq with h1 h2
    subst h1
    subst h2
    simp only [baseLen] at hbase hlen
    have hi : i ≤ cs.length := by omega
    have hbase' : baseLen t1 = baseLen (OTOperation.Retain (j - i) :: t2) := by
      simp only [baseLen]
      omega
    have hlen' : (cs.drop i).length = baseLen t1 := by
      simp only [List.length_drop]
      omega
    have hIH := ih a b hrec hbase' (cs.drop i) hlen'
    calc applyOps (OTOperation.Retain i :: b)
          (applyOps (OTOperation.Retain i :: t1) cs)
        = applyOps (OTOperation.Retain i :: b)
            (cs.take i ++ applyOps t1 (cs.drop i)) := rfl
      _ = cs.take i ++ applyOps b (applyOps t1 (cs.drop i)) :=
          applyOps_retain_chunk _ _ _ _ hi
      _ = cs.take i ++ applyOps a
            (applyOps (OTOperation.Retain (j - i) :: t2) (cs.drop i)) := by rw [hIH]
      _ = applyOps (OTOperation.Retain i :: a)
            (applyOps (OTOperation.Retain j :: t2) cs) := by
          rw [show applyOps (OTOperation.Retain j :: t2) cs
              = cs.take i ++ applyOps (OTOperation.Retain (j - i) :: t2) (cs.drop i) from by
            simp only [applyOps]
            rw [take_split cs i j (Nat.le_of_lt hlt), drop_split cs i j (Nat.le_of_lt hlt),
              List.append_assoc]]
          rw [applyOps_retain_chunk _ _ _ _ hi]
  | case8 fuel i t1 j t2 hnlt hgt ih =>
    intro aR bR h hbase cs hlen
    simp only [transformRec, if_neg hnlt, if_pos hgt, Option.map_eq_some'] at h
    obtain ⟨⟨a, b⟩, hrec, heq⟩ := h
    injection heq with h1 h2
    subst h1
    subst h2
    simp only [baseLen] at hbase hlen
    have hj : j ≤ cs.length := by omega
    have hbase' : baseLen (OTOperation.Retain (i - j) :: t1) = baseLen t2 := by
      simp only [baseLen]
      omega
    have hlen' : (cs.drop j).length = baseLen (OTOperation.Retain (i - j) :: t1) := by
      simp only [List.length_drop, baseLen]
      omega
    have hIH := ih a b hrec hbase' (cs.drop j) hlen'
    calc applyOps (OTOperation.Retain j :: b)
          (applyOps (OTOperation.Retain i :: t1) cs)
        = applyOps (OTOperation.Retain j :: b)
            (cs.take j ++ applyOps (OTOperation.Retain (i - j) :: t1) (cs.drop j)) := by
          rw [show applyOps (OTOperation.Retain i :: t1) cs
              = cs.take j ++ applyOps (OTOperation.Retain (i - j) :: t1) (cs.drop j) from by
            simp only [applyOps]
            rw [take_split cs j i (Nat.le_of_lt hgt), drop_split cs j i (Nat.le_of_lt hgt),
              List.append_assoc]]
      _ = cs.take j ++ applyOps b
            (applyOps (OTOperation.Retain (i - j) :: t1) (cs.drop j)) :=
          applyOps_retain_chunk _ _ _ _ hj
      _ = cs.take j ++ applyOps a (applyOps t2 (cs.drop j)) := by rw [hIH]
      _ = applyOps (OTOperation.Retain j :: a)
            (applyOps (OTOperation.Retain j :: t2) cs) :=
          (applyOps_retain_chunk _ _ _ _ hj).symm
  | case9 fuel i t1 j t2 hnlt hngt ih =>
    intro aR bR h hbase cs hlen
    have hij : i = j := by omega
    subst hij
    simp only [transformRec, if_neg hnlt, Option.map_eq_some'] at h
    obtain ⟨⟨a, b⟩, hrec, heq⟩ := h
    injection heq with h1 h2
    subst h1
    subst h2
    simp only [baseLen] at hbase hlen
    have hi : i ≤ cs.length := by omega
    have hbase' : baseLen t1 = baseLen t2 := by omega
    have hlen' : (cs.drop i).length = baseLen t1 := by
      simp only [List.length_drop]
      omega
    have hIH := ih a b hrec hbase' (cs.drop i) hlen'
    calc applyOps (OTOperation.Retain i :: b)
          (applyOps (OTOperation.Retain i :: t1) cs)
        = applyOps (OTOperation.Retain i :: b)
            (cs.take i ++ applyOps t1 (cs.drop i)) := rfl
      _ = cs.take i ++ applyOps b (applyOps t1 (cs.drop i)) :=
          applyOps_retain_chunk _ _ _ _ hi
      _ = cs.take i ++ applyOps a (applyOps t2 (cs.drop i)) := by rw [hIH]
      _ = applyOps (OTOperation.Retain i :: a)
            (applyOps (OTOperation.Retain i :: t2) cs) :=
          (applyOps_retain_chunk _ _ _ _ hi).symm
  | case10 fuel i t1 j t2 hlt ih =>
    intro aR bR h hbase cs hlen
    simp only [transformRec, if_pos hlt] at h
    simp only [baseLen] at hbase hlen
    have hbase' : baseLen t1 = baseLen (OTOperation.Delete (j - i) :: t2) := by
      simp only [baseLen]
      omega
    have hlen' : (cs.drop i).length = baseLen t1 := by
      simp only [List.length_drop]
      omega
    have hIH := ih aR bR h hbase' (cs.drop i) hlen'
    calc applyOps bR (applyOps (OTOperation.Delete i :: t1) cs)
        = applyOps bR (applyOps t1 (cs.drop i)) := rfl
      _ = applyOps aR (applyOps (OTOperation.Delete (j - i) :: t2) (cs.drop i)) := hIH
      _ = applyOps aR (applyOps t2 ((cs.drop i).drop (j - i))) := rfl
      _ = applyOps aR (applyOps (OTOperation.Delete j :: t2) cs) := by
          rw [← drop_split cs i j (Nat.le_of_lt hlt)]
          rfl
  | case11 fuel i t1 j t2 hnlt hgt ih =>
    intro aR bR h hbase cs hlen
    simp only [transformRec, if_neg hnlt, if_pos hgt] at h
    simp only [baseLen] at hbase hlen
    have hbase' : baseLen (OTOperation.Delete (i - j) :: t1) = baseLen t2 := by
      simp only [baseLen]
      omega
    have hlen' : (cs.drop j).length = baseLen (OTOperation.Delete (i - j) :: t1) := by
      simp only [List.length_drop, baseLen]
      omega
    have hIH := ih aR bR h hbase' (cs.drop j) hlen'
    calc applyOps bR (applyOps (OTOperation.Delete i :: t1) cs)
        = applyOps bR (applyOps t1 ((cs.drop j).drop (i - j))) := by
          rw [← drop_split cs j i (Nat.le_of_lt hgt)]
          rfl
      _ = applyOps aR (applyOps t2 (cs.drop j)) := hIH
      _ = applyOps aR (applyOps (OTOperation.Delete j :: t2) cs) := rfl
  | case12 fuel i t1 j t2 hnlt hngt ih =>
    intro aR bR h hbase cs hlen
    have hij : i = j := by omega
    subst hij
    simp only [transformRec, if_neg hnlt] at h
    simp only [baseLen] at hbase hlen
    have hbase' : baseLen t1 = baseLen t2 := by omega
    have hlen' : (cs.drop i).length = baseLen t1 := by
      simp only [List.length_drop]
      omega
    exact ih aR bR h hbase' (cs.drop i) hlen'
  | case13 fuel i t1 j t2 hlt ih =>
    intro aR bR h hbase cs hlen
    simp only [transformRec, if_pos hlt, Option.map_eq_some'] at h
    obtain ⟨⟨a, b⟩, hrec, heq⟩ := h
    injection heq with h1 h2
    subst h1
    subst h2
    simp only [baseLen] at hbase hlen
    have hi : i ≤ cs.length := by omega
    have hbase' : baseLen t1 = baseLen (OTOperation.Retain (j - i) :: t2) := by
      simp only [baseLen]
      omega
    have hlen' : (cs.drop i).length = baseLen t1 := by
      simp only [List.length_drop]
      omega
    have hIH := ih a b hrec hbase' (cs.drop i) hlen'
    calc applyOps b (applyOps (OTOperation.Delete i :: t1) cs)
        = applyOps b (applyOps t1 (cs.drop i)) := rfl
      _ = applyOps a (applyOps (OTOperation.Retain (j - i) :: t2) (cs.drop i)) := hIH
      _ = applyOps (OTOperation.Delete i :: a)
            (applyOps (OTOperation.Retain j :: t2) cs) := by
          rw [show applyOps (OTOperation.Retain j :: t2) cs
              = cs.take i ++ applyOps (OTOperation.Retain (j - i) :: t2) (cs.drop i) from by
            simp only [applyOps]
            rw [take_split cs i j (Nat.le_of_lt hlt), drop_split cs i j (Nat.le_of_lt hlt),
              List.append_assoc]]
          rw [applyOps_delete_chunk _ _ _ _ hi]
  | case14 fuel i t1 j t2 hnlt hgt ih =>
    intro aR bR h hbase cs hlen
    simp only [transformRec, if_neg hnlt, if_pos hgt, Option.map_eq_some'] at h
    obtain ⟨⟨a, b⟩, hrec, heq⟩ := h
    injection heq with h1 h2
    subst h1
    subst h2
    simp only [baseLen] at hbase hlen
    have hj : j ≤ cs.length := by omega
    have hbase' : baseLen (OTOperation.Delete (i - j) :: t1) = baseLen t2 := by
      simp only [baseLen]
      omega
    have hlen' : (cs.drop j).length = baseLen (OTOperation.Delete (i - j) :: t1) := by
      simp only [List.length_drop, baseLen]
      omega
    have hIH := ih a b hrec hbase' (cs.drop j) hlen'
    calc applyOps b (applyOps (OTOperation.Delete i :: t1) cs)
        = applyOps b (applyOps t1 ((cs.drop j).drop (i - j))) := by
          rw [← drop_split cs j i (Nat.le_of_lt hgt)]
          rfl
      _ = applyOps a (applyOps t2 (cs.drop j)) := hIH
      _ = applyOps (OTOperation.Delete j :: a)
            (applyOps (OTOperation.Retain j :: t2) cs) := by
          rw [show applyOps (OTOperation.Retain j :: t2) cs
              = cs.take j ++ applyOps t2 (cs.drop j) from rfl]
          rw [applyOps_delete_chunk _ _ _ _ hj]
  | case15 fuel i t1 j t2 hnlt hngt ih =>
    intro aR bR h hbase cs hlen
    have hij : i = j := by omega
    subst hij
    simp only [transformRec, if_neg hnlt, Option.map_eq_some'] at h
    obtain ⟨⟨a, b⟩, hrec, heq⟩ := h
    injection heq with h1 h2
    subst h1
    subst h2
    simp only [baseLen] at hbase hlen
    have hi : i ≤ cs.length := by omega
    have hbase' : baseLen t1 = baseLen t2 := by omega
    have hlen' : (cs.drop i).length = baseLen t1 := by
      simp only [List.length_drop]
      omega
    have hIH := ih a b hrec hbase' (cs.drop i) hlen'
    calc applyOps b (applyOps (OTOperation.Delete i :: t1) cs)
        = applyOps b (applyOps t1 (cs.drop i)) := rfl
      _ = applyOps a (applyOps t2 (cs.drop i)) := hIH
      _ = applyOps (OTOperation.Delete i :: a)
            (applyOps (OTOperation.Retain i :: t2) cs) := by
          rw [show applyOps (OTOperation.Retain i :: t2) cs
              = cs.take i ++ applyOps t2 (cs.drop i) from rfl]
          rw [applyOps_delete_chunk _ _ _ _ hi]
  | case16 fuel i t1 j t2 hlt ih =>
    intro aR bR h hbase cs hlen
    simp only [transformRec, if_pos hlt, Option.map_eq_some'] at h
    obtain ⟨⟨a, b⟩, hrec, heq⟩ := h
    injection heq with h1 h2
    subst h1
    subst h2
    simp only [baseLen] at hbase hlen
    have hi : i ≤ cs.length := by omega
    have hbase' : baseLen t1 = baseLen (OTOperation.Delete (j - i) :: t2) := by
      simp only [baseLen]
      omega
    have hlen' : (cs.drop i).length = baseLen t1 := by
      simp only [List.length_drop]
      omega
    have hIH := ih a b hrec hbase' (cs.drop i) hlen'
    calc applyOps (OTOperation.Delete i :: b)
          (applyOps (OTOperation.Retain i :: t1) cs)
        = applyOps (OTOperation.Delete i :: b)
            (cs.take i ++ applyOps t1 (cs.drop i)) := rfl
      _ = applyOps b (applyOps t1 (cs.drop i)) := applyOps_delete_chunk _ _ _ _ hi
      _ = applyOps a (applyOps (OTOperation.Delete (j - i) :: t2) (cs.drop i)) := hIH
      _ = applyOps a (applyOps t2 ((cs.drop i).drop (j - i))) := rfl
      _ = applyOps a (applyOps (OTOperation.Delete j :: t2) cs) := by
          rw [← drop_split cs i j (Nat.le_of_lt hlt)]
          rfl
  | case17 fuel i t1 j t2 hnlt hgt ih =>
    intro aR bR h hbase cs hlen
    simp only [transformRec, if_neg hnlt, if_pos hgt, Option.map_eq_some'] at h
    obtain ⟨⟨a, b⟩, hrec, heq⟩ := h
    injection heq with h1 h2
    subst h1
    subst h2
    simp only [baseLen] at hbase hlen
    have hj : j ≤ cs.length := by omega
    have hbase' : baseLen (OTOperation.Retain (i - j) :: t1) = baseLen t2 := by
      simp only [baseLen]
      omega
    have hlen' : (cs.drop j).length = baseLen (OTOperation.Retain (i - j) :: t1) := by
      simp only [List.length_drop, baseLen]
      omega
    have hIH := ih a b hrec hbase' (cs.drop j) hlen'
    calc applyOps (OTOperation.Delete j :: b)
          (applyOps (OTOperation.Retain i :: t1) cs)
        = applyOps (OTOperation.Delete j :: b)
            (cs.take j ++ applyOps (OTOperation.Retain (i - j) :: t1) (cs.drop j)) := by
          rw [show applyOps (OTOperation.Retain i :: t1) cs
              = cs.take j ++ applyOps (OTOperation.Retain (i - j) :: t1) (cs.drop j) from by
            simp only [applyOps]
            rw [take_split cs j i (Nat.le_of_lt hgt), drop_split cs j i (Nat.le_of_lt hgt),
              List.append_assoc]]
      _ = applyOps b (applyOps (OTOperation.Retain (i - j) :: t1) (cs.drop j)) :=
          applyOps_delete_chunk _ _ _ _ hj
      _ = applyOps a (applyOps t2 (cs.drop j)) := hIH
      _ = applyOps a (applyOps (OTOperation.Delete j :: t2) cs) := rfl
  | case18 fuel i t1 j t2 hnlt hngt ih =>
    intro aR bR h hbase cs hlen
    have hij : i = j := by omega
    subst hij
    simp only [transformRec, if_neg hnlt, Option.map_eq_some'] at h
    obtain ⟨⟨a, b⟩, hrec, heq⟩ := h
    injection heq with h1 h2
    subst h1
    subst h2
    simp only [baseLen] at hbase hlen
    have hi : i ≤ cs.length := by omega
    have hbase' : baseLen t1 = baseLen t2 := by omega
    have hlen' : (cs.drop i).length = baseLen t1 := by
      simp only [List.length_drop]
      omega
    have hIH := ih a b hrec hbase' (cs.drop i) hlen'
    calc applyOps (OTOperation.Delete i :: b)
          (applyOps (OTOperation.Retain i :: t1) cs)
        = applyOps (OTOperation.Delete i :: b)
            (cs.take i ++ applyOps t1 (cs.drop i)) := rfl
      _ = applyOps b (applyOps t1 (cs.drop i)) := applyOps_delete_chunk _ _ _ _ hi
      _ = applyOps a (applyOps t2 (cs.drop i)) := hIH
      _ = applyOps a (applyOps (OTOperation.Delete i :: t2) cs) := rfl

theorem transform_apply_comm (x y xP yP : OperationSeq)
    (hwx : x.base_len = baseLen x.ops) (hwy : y.base_len = baseLen y.ops)
    (h : x.transform y = some (xP, yP)) :
    ∀ cs : List Char, cs.length = baseLen x.ops →
      applyOps yP.ops (applyOps x.ops cs) = applyOps xP.ops (applyOps y.ops cs) := by
  unfold OperationSeq.transform at h
  split at h
  case isTrue hbase =>
    obtain ⟨aR, bR, hrec, hA, hB⟩ := transformGo_toRec _ _ _ _ _ _ _ h
    intro cs hcs
    have hxP : ∀ z, applyOps xP.ops z = applyOps aR z := by
      intro z
      have := hA [] z
      simpa [OperationSeq.default] using this
    have hyP : ∀ z, applyOps yP.ops z = applyOps bR z := by
      intro z
      have := hB [] z
      simpa [OperationSeq.default] using this
    rw [hxP, hyP]
    refine transformRec_comm _ _ _ _ _ hrec ?_ cs hcs
    rw [← hwx, ← hwy]
    exact hbase
  case isFalse => exact Option.noConfusion h

/-- C1: for every editor delta `a` and queued daemon op `b` padded to the
same base length (equal base lengths, with the cached `base_len` agreeing
with the operation lists), the transform step inside
`transform_through_operations` — `my_opseq.transform(&their_opseq)` with
`my = b` the queued op and `their = a` the editor delta, returning
`(b', a')` — satisfies `apply(b', apply(a, s)) = apply(a', apply(b, s))`
for every base string `s` of that length. -/
theorem C1_transform_step_commutes (a b aP bP : OperationSeq)
    (hwa : a.base_len = baseLen a.ops) (hwb : b.base_len = baseLen b.ops)
    (h : b.transform a = some (bP, aP))
    (s : List Char) (hs : s.length = baseLen a.ops) :
    applyOps bP.ops (applyOps a.ops s) = applyOps aP.ops (applyOps b.ops s) := by
  have hbase : b.base_len = a.base_len := by
    by_contra hne
    unfold OperationSeq.transform at h
    rw [if_neg hne] at h
    exact Option.noConfusion h
  have hs' : s.length = baseLen b.ops := by
    rw [← hwb, hbase, hwa]
    exact hs
  exact (transform_apply_comm b a bP aP hwb hwa h s hs').symm

/-- Witness for C1: the operations of the repository's own
`ot_transform_does_what_we_think` test, on the base string `"abc"`. -/
theorem C1_transform_step_commutes_witness :
    (wC1a.base_len = baseLen wC1a.ops ∧ wC1b.base_len = baseLen wC1b.ops ∧
      wC1b.transform wC1a = some (wC1bP, wC1aP) ∧ wC1s.length = baseLen wC1a.ops) ∧
    applyOps wC1bP.ops (applyOps wC1a.ops wC1s)
      = applyOps wC1aP.ops (applyOps wC1b.ops wC1s) :=
  ⟨⟨by decide, by decide, by decide, by decide⟩,
   C1_transform_step_commutes wC1a wC1b wC1aP wC1bP (by decide) (by decide) (by decide)
     wC1s (by decide)⟩

/-- C4: with the daemon queue `[insert "foo"@0, insert "foo"@3]` and the
editor submitting `insert "bar"@0`, `transform_through_operations` returns
the editor op rebased to `insert "bar"@6` and the queue with both entries'
positions and payloads unchanged. -/
theorem C4_transform_rebases_editor_insert :
    c4_theirs.transform_through_operations c4_ours
      = some (insertOpAt 6 ['b', 'a', 'r'], c4_ours) := by decide

/-- C2 (code behavior at the failing inputs): a call with a revision from
the future is silently ignored — the branch does nothing, it does not
terminate the connection — and a call whose revision gap exceeds the queue
length trips the `assert!`, i.e. panics the daemon process, instead of
terminating the editor connection.  `c2_s3` is reached by two CRDT changes
and an editor op at revision 1. -/
theorem C2_future_revision_and_overrun_behavior :
    OTServer.new.apply_editor_operation 1 (insertOpAt 0 ['x'])
        = EditorOpOutcome.futureRevisionIgnored ∧
    c2_s2.apply_editor_operation 1 (insertOpAt 0 ['x']) = EditorOpOutcome.ok c2_s3 ∧
    c2_s3.daemon_revision = 2 ∧
    c2_s3.editor_queue.length = 1 ∧
    c2_s3.apply_editor_operation 0 (insertOpAt 0 ['x']) = EditorOpOutcome.crashed := by
  refine ⟨by decide, by decide, by decide, by decide, by decide⟩

/-- C3 counterexample: on a server with `daemon_revision = 3` and three
queued ops, an editor op at revision 1 drops one entry (the new queue has
two), not `daemon_revision - rev = 2` entries as the claim states. -/
theorem C3_counterexample_drop_count :
    c3_state.apply_editor_operation 1 (insertOpAt 0 ['x']) = EditorOpOutcome.ok c3_post ∧
    c3_state.editor_queue.length = 3 ∧
    c3_state.daemon_revision = 3 ∧
    c3_post.editor_queue.length = 2 ∧
    c3_state.editor_queue.length - c3_post.editor_queue.length
      ≠ c3_state.daemon_revision - 1 := by
  refine ⟨by decide, by decide, by decide, by decide, by decide⟩

theorem add_editor_operation_fields (s : OTServer) (op : Op) (s' : OTServer)
    (h : s.add_editor_operation op = some s') :
    s'.editor_queue = s.editor_queue ∧ s'.daemon_revision = s.daemon_revision := by
  unfold OTServer.add_editor_operation at h
  rw [Option.map_eq_some'] at h
  obtain ⟨d, _, heq⟩ := h
  subst heq
  exact ⟨rfl, rfl⟩

theorem transform_through_length :
    ∀ (their : Op) (ops : List Op) (res : Op × List Op),
      Op.transform_through_operations their ops = some res → res.2.length = ops.length := by
  intro their ops
  induction ops generalizing their with
  | nil =>
    intro res h
    simp only [Op.transform_through_operations, Option.some.injEq] at h
    rw [← h]
  | cons my rest ih =>
    intro res h
    simp only [Op.transform_through_operations] at h
    split at h
    · exact Option.noConfusion h
    · split at h
      case h_1 my0 their0 =>
        split at h
        case h_1 p =>
          rw [Option.map_eq_some'] at h
          obtain ⟨⟨t, acc⟩, hrec, heq⟩ := h
          subst heq
          have := ih _ _ hrec
          simp only [List.length_cons]
          simp only at this
          omega
        case h_2 => exact Option.noConfusion h
      case h_2 => exact Option.noConfusion h

theorem apply_editor_operation_else (s : OTServer) (rev : Nat) (op : Op)
    (h1 : ¬ rev > s.daemon_revision) (h2 : ¬ rev = s.daemon_revision) :
    s.apply_editor_operation rev op
      = (if s.editor_queue.length < s.daemon_revision - rev then EditorOpOutcome.crashed
         else
          match op.transform_through_operations
              (s.editor_queue.drop
                (s.editor_queue.length - (s.daemon_revision - rev))) with
          | some p =>
              (match ({ s with editor_queue := p.2 }).add_editor_operation p.1 with
               | some s' => EditorOpOutcome.ok s'
               | none => EditorOpOutcome.crashed)
          | none => EditorOpOutcome.crashed) := by
  unfold OTServer.apply_editor_operation
  rw [if_neg h1, if_neg h2]

theorem editor_op_lt_spec (s : OTServer) (rev : Nat) (op : Op) (s' : OTServer)
    (hlt : rev < s.daemon_revision)
    (h : s.apply_editor_operation rev op = EditorOpOutcome.ok s') :
    ∃ p : Op × List Op,
      op.transform_through_operations
          (s.editor_queue.drop (s.editor_queue.length - (s.daemon_revision - rev)))
        = some p ∧
      s'.editor_queue = p.2 ∧
      p.2.length = s.daemon_revision - rev ∧
      s.daemon_revision - rev ≤ s.editor_queue.length ∧
      s'.daemon_revision = s.daemon_revision := by
  rw [apply_editor_operation_else s rev op (by omega) (by omega)] at h
  split at h
  · exact EditorOpOutcome.noConfusion h
  · rename_i hnlen
    split at h
    · rename_i p heq
      split at h
      · rename_i s'' hadd
        injection h with h'
        subst h'
        obtain ⟨hq, hd⟩ := add_editor_operation_fields _ _ _ hadd
        have hlen := transform_through_length _ _ _ heq
        refine ⟨p, heq, by simpa using hq, ?_, by omega, by simpa using hd⟩
        rw [hlen]
        simp only [List.length_drop]
        omega
      · exact EditorOpOutcome.noConfusion h
    · exact EditorOpOutcome.noConfusion h

/-- C3 (amended): for `rev < daemon_revision`, `apply_editor_operation`
drops exactly the first `editor_queue.length - (daemon_revision - rev)`
entries of the pre-call queue; the remaining last `daemon_revision - rev`
entries are the daemon ops the editor has not yet seen — they are
transformed and become the new `editor_queue` (of that same length). -/
theorem C3_amended_queue_drop (s : OTServer) (rev : Nat) (op : Op) (s' : OTServer)
    (hlt : rev < s.daemon_revision)
    (h : s.apply_editor_operation rev op = EditorOpOutcome.ok s') :
    ∃ opT qT,
      op.transform_through_operations
          (s.editor_queue.drop (s.editor_queue.length - (s.daemon_revision - rev)))
        = some (opT, qT) ∧
      s'.editor_queue = qT ∧
      qT.length = s.daemon_revision - rev ∧
      s.daemon_revision - rev ≤ s.editor_queue.length := by
  obtain ⟨p, heq, hq, hlen, hle, _⟩ := editor_op_lt_spec s rev op s' hlt h
  exact ⟨p.1, p.2, heq, hq, hlen, hle⟩

/-- Witness for the amended C3 at the concrete three-op server. -/
theorem C3_amended_queue_drop_witness :
    (1 < c3_state.daemon_revision ∧
      c3_state.apply_editor_operation 1 (insertOpAt 0 ['x']) = EditorOpOutcome.ok c3_post) ∧
    (∃ opT qT,
      (insertOpAt 0 ['x']).transform_through_operations
          (c3_state.editor_queue.drop
            (c3_state.editor_queue.length - (c3_state.daemon_revision - 1)))
        = some (opT, qT) ∧
      c3_post.editor_queue = qT ∧
      qT.length = c3_state.daemon_revision - 1 ∧
      c3_state.daemon_revision - 1 ≤ c3_state.editor_queue.length) :=
  ⟨⟨by decide, by decide⟩,
   C3_amended_queue_drop c3_state 1 (insertOpAt 0 ['x']) c3_post (by decide) (by decide)⟩

/-- C5: in every reachable prototype-server state the editor queue is no
longer than `daemon_revision`, and every completed `apply_crdt_change`
increments `daemon_revision` and the queue length by exactly one. -/
theorem C5_queue_bounded_and_crdt_increments :
    (∀ s : OTServer, s.Reachable → s.editor_queue.length ≤ s.daemon_revision) ∧
    (∀ (s : OTServer) (op : Op) (s' : OTServer), s.apply_crdt_change op = some s' →
      s'.daemon_revision = s.daemon_revision + 1 ∧
      s'.editor_queue.length = s.editor_queue.length + 1) := by
  have hcrdt : ∀ (s : OTServer) (op : Op) (s' : OTServer),
      s.apply_crdt_change op = some s' →
      s'.daemon_revision = s.daemon_revision + 1 ∧
      s'.editor_queue.length = s.editor_queue.length + 1 := by
    intro s op s' h
    unfold OTServer.apply_crdt_change at h
    rw [Option.map_eq_some'] at h
    obtain ⟨d, _, heq⟩ := h
    subst heq
    simp
  refine ⟨?_, hcrdt⟩
  intro s hs
  induction hs with
  | new => exact Nat.le_refl 0
  | new_with_doc d => exact Nat.le_refl 0
  | crdt_change hr hstep ih =>
    obtain ⟨h1, h2⟩ := hcrdt _ _ _ hstep
    omega
  | editor_op hr hstep ih =>
    rename_i s s' rev op
    by_cases h1 : rev > s.daemon_revision
    · unfold OTServer.apply_editor_operation at hstep
      rw [if_pos h1] at hstep
      exact EditorOpOutcome.noConfusion hstep
    by_cases h2 : rev = s.daemon_revision
    · unfold OTServer.apply_editor_operation at hstep
      rw [if_neg h1, if_pos h2] at hstep
      split at hstep
      · rename_i s'' hadd
        injection hstep with h'
        subst h'
        obtain ⟨hq, hd⟩ := add_editor_operation_fields _ _ _ hadd
        rw [hq, hd]
        exact ih
      · exact EditorOpOutcome.noConfusion hstep
    · have hlt : rev < s.daemon_revision := by omega
      obtain ⟨p, _, hq, hlen, hle, hdr⟩ := editor_op_lt_spec s rev op s' hlt hstep
      rw [hq, hlen, hdr]
      omega

/-- Witness for C5: the server after one CRDT change on the empty document. -/
theorem C5_queue_bounded_and_crdt_increments_witness :
    (c2_s1.Reachable ∧ c2_s1.editor_queue.length ≤ c2_s1.daemon_revision) ∧
    (c2_s0.apply_crdt_change (insertOpAt 0 ['a']) = some c2_s1 ∧
      c2_s1.daemon_revision = c2_s0.daemon_revision + 1 ∧
      c2_s1.editor_queue.length = c2_s0.editor_queue.length + 1) := by
  have hstep : c2_s0.apply_crdt_change (insertOpAt 0 ['a']) = some c2_s1 := by decide
  have hreach : c2_s1.Reachable :=
    OTServer.Reachable.crdt_change (OTServer.Reachable.new_with_doc []) hstep
  have hinc := C5_queue_bounded_and_crdt_increments.2 c2_s0 (insertOpAt 0 ['a']) c2_s1 hstep
  exact ⟨⟨hreach, C5_queue_bounded_and_crdt_increments.1 c2_s1 hreach⟩,
    ⟨hstep, hinc.1, hinc.2⟩⟩

/-- C8: applying `retain 3, insert "m", delete 1, retain 5, delete 4,
retain 3, delete 2, insert "you"` to a document initialized with
`"To be or not to be, that is the question"` yields
`"To me or to you, that is the question"`; the delta's splice positions are
resolved against the base content and corrected by the running offset. -/
theorem C8_multi_op_delta :
    (({} : Document).initialize_text c8_initial).apply_delta_to_doc
        (EditorTextDelta.from_delta c8_delta c8_initial)
      = some { text := some c8_expected } := by decide

/-- C6 counterexample: a received sync message that changes nothing (no
patches) leaves the CRDT document unchanged and still publishes one
change-ping, contradicting "no ping is published when the message did not
actually advance the CRDT". -/
theorem C6_counterexample_noop_sync_pings :
    c6_state.handle_message (DocMessage.ReceiveSyncMessage [])
        = some (c6_state, { pings := 1 }) ∧ (1 : Nat) ≠ 0 :=
  ⟨by decide, by decide⟩

theorem applyDeltaMessage_pings (a : DocumentActor) (delta : TextDelta)
    (a' : DocumentActor) (eff : ActorEffects)
    (h : a.applyDeltaMessage delta = some (a', eff)) : eff.pings = 1 := by
  unfold DocumentActor.applyDeltaMessage at h
  split at h
  · exact Option.noConfusion h
  · dsimp only at h
    split at h
    · exact Option.noConfusion h
    · simp only [Option.some.injEq, Prod.mk.injEq] at h
      rw [← h.2]

/-- C6 (amended): a handled message publishes exactly one change-ping when
it is of a CRDT-mutating kind (`RandomEdit`, `Delta`, `RevDelta`,
`ReceiveSyncMessage`) — whether or not the document content actually changed
— and none otherwise. -/
theorem C6_amended_one_ping_per_mutating_message (a : DocumentActor) (msg : DocMessage)
    (a' : DocumentActor) (eff : ActorEffects)
    (h : a.handle_message msg = some (a', eff)) :
    eff.pings = if msg.isMutatingKind then 1 else 0 := by
  cases msg with
  | GetContent =>
    simp only [DocumentActor.handle_message, Option.some.injEq, Prod.mk.injEq] at h
    rw [← h.2]
    rfl
  | Open =>
    simp only [DocumentActor.handle_message] at h
    split at h
    · simp only [Option.some.injEq, Prod.mk.injEq] at h
      rw [← h.2]
      rfl
    · exact Option.noConfusion h
  | Close =>
    simp only [DocumentActor.handle_message, Option.some.injEq, Prod.mk.injEq] at h
    rw [← h.2]
    rfl
  | RandomEdit delta => exact applyDeltaMessage_pings a delta a' eff h
  | Delta delta => exact applyDeltaMessage_pings a delta a' eff h
  | RevDelta rd =>
    simp only [DocumentActor.handle_message] at h
    split at h
    · exact Option.noConfusion h
    · split at h
      · exact Option.noConfusion h
      · split at h
        · exact Option.noConfusion h
        · split at h
          · exact Option.noConfusion h
          · simp only [Option.some.injEq, Prod.mk.injEq] at h
            rw [← h.2]
            rfl
  | ReceiveSyncMessage m =>
    simp only [DocumentActor.handle_message] at h
    split at h
    · simp only [Option.some.injEq, Prod.mk.injEq] at h
      rw [← h.2]
      rfl
    · simp only [Option.some.injEq, Prod.mk.injEq] at h
      rw [← h.2]
      rfl
  | GenerateSyncMessage =>
    simp only [DocumentActor.handle_message, Option.some.injEq, Prod.mk.injEq] at h
    rw [← h.2]
    rfl
  | NewEditorConnection hdl =>
    simp only [DocumentActor.handle_message, Option.some.injEq, Prod.mk.injEq] at h
    rw [← h.2]
    rfl

/-- Witness for the amended C6: the no-op sync message publishes one ping
(its kind is mutating), `GetContent` publishes none. -/
theorem C6_amended_one_ping_per_mutating_message_witness :
    (c6_state.handle_message (DocMessage.ReceiveSyncMessage [])
        = some (c6_state, { pings := 1 })) ∧
    (({ pings := 1 } : ActorEffects).pings
        = if (DocMessage.ReceiveSyncMessage ([] : List TextDelta)).isMutatingKind
          then 1 else 0) ∧
    (c10_state.handle_message DocMessage.GetContent
        = some (c10_state, { content_reply := some c10_state.crdt_doc.current_content })) ∧
    (({ content_reply := some c10_state.crdt_doc.current_content } : ActorEffects).pings
        = if DocMessage.GetContent.isMutatingKind then 1 else 0) := by
  have h1 : c6_state.handle_message (DocMessage.ReceiveSyncMessage [])
      = some (c6_state, { pings := 1 }) := by decide
  have h2 : c10_state.handle_message DocMessage.GetContent
      = some (c10_state, { content_reply := some c10_state.crdt_doc.current_content }) := rfl
  exact ⟨h1, C6_amended_one_ping_per_mutating_message c6_state _ c6_state { pings := 1 } h1,
    h2, C6_amended_one_ping_per_mutating_message c10_state _ c10_state _ h2⟩

/-- C7 counterexample: on a frame whose 4-byte big-endian signed length
prefix is negative (`-1`), the reader forwards nothing and the shared
shutdown token is *not* cancelled — the buffer-allocation panic bypasses the
`Err` path that performs the cancel — contradicting "that connection's tasks
are cancelled via the shared shutdown token". -/
theorem C7_counterexample_negative_length_no_cancel :
    read_message c7_negFrame = ReadOutcome.allocFailed ∧
    runReader c7_negFrame = ([], false) ∧ (false : Bool) ≠ true :=
  ⟨by decide, by decide, by decide⟩

/-- C7 (amended): the reader loop cancels the shared shutdown token exactly
on the `Err` path (EOF / I/O error, including an oversized positive length
whose payload never fully arrives); a negative length prefix makes the
buffer allocation panic, which ends the reader without cancelling the token,
so the other tasks of that connection are not torn down.  (That the daemon
process and other connections keep running is a property of the async
runtime, outside this model.) -/
theorem C7_amended_cancel_only_on_ioError :
    (∀ bytes : List UInt8, read_message bytes = ReadOutcome.ioError →
      runReader bytes = ([], true)) ∧
    (∀ bytes : List UInt8, read_message bytes = ReadOutcome.allocFailed →
      runReader bytes = ([], false)) := by
  constructor <;> intro bytes h <;> simp [runReader, runReaderGo, h]

/-- Witness for the amended C7: a truncated frame cancels the token, the
negative-length frame does not. -/
theorem C7_amended_cancel_only_on_ioError_witness :
    (read_message c7_shortFrame = ReadOutcome.ioError ∧
      runReader c7_shortFrame = ([], true)) ∧
    (read_message c7_negFrame = ReadOutcome.allocFailed ∧
      runReader c7_negFrame = ([], false)) :=
  ⟨⟨by decide, C7_amended_cancel_only_on_ioError.1 c7_shortFrame (by decide)⟩,
   ⟨by decide, C7_amended_cancel_only_on_ioError.2 c7_negFrame (by decide)⟩⟩

theorem process_crdt_delta_clients (a : DocumentActor) (d : TextDelta) :
    (a.process_crdt_delta_in_ot d).1.editor_clients = a.editor_clients := by
  unfold DocumentActor.process_crdt_delta_in_ot
  split <;> rfl

theorem process_crdt_patches_clients :
    ∀ (ps : List TextDelta) (a : DocumentActor),
      (a.process_crdt_patches_in_ot ps).1.editor_clients = a.editor_clients := by
  intro ps
  induction ps with
  | nil => intro a; rfl
  | cons p rest ih =>
    intro a
    show ((a.process_crdt_delta_in_ot p).1.process_crdt_patches_in_ot rest).1.editor_clients
      = a.editor_clients
    rw [ih, process_crdt_delta_clients]

theorem handle_message_clients (a : DocumentActor) (msg : DocMessage) (a' : DocumentActor)
    (eff : ActorEffects) (h : a.handle_message msg = some (a', eff)) :
    a'.editor_clients = a.editor_clients ∨
      ∃ hdl, msg = DocMessage.NewEditorConnection hdl ∧
        a'.editor_clients = insertClient a.editor_clients 0 hdl := by
  cases msg with
  | GetContent =>
    left
    simp only [DocumentActor.handle_message, Option.some.injEq, Prod.mk.injEq] at h
    rw [← h.1]
  | Open =>
    left
    simp only [DocumentActor.handle_message] at h
    split at h
    · simp only [Option.some.injEq, Prod.mk.injEq] at h
      rw [← h.1]
    · exact Option.noConfusion h
  | Close =>
    left
    simp only [DocumentActor.handle_message, Option.some.injEq, Prod.mk.injEq] at h
    rw [← h.1]
  | RandomEdit delta =>
    left
    simp only [DocumentActor.handle_message, DocumentActor.applyDeltaMessage] at h
    split at h
    · exact Option.noConfusion h
    · split at h
      · exact Option.noConfusion h
      · simp only [Option.some.injEq, Prod.mk.injEq] at h
        rw [← h.1, process_crdt_delta_clients]
  | Delta delta =>
    left
    simp only [DocumentActor.handle_message, DocumentActor.applyDeltaMessage] at h
    split at h
    · exact Option.noConfusion h
    · split at h
      · exact Option.noConfusion h
      · simp only [Option.some.injEq, Prod.mk.injEq] at h
        rw [← h.1, process_crdt_delta_clients]
  | RevDelta rd =>
    left
    simp only [DocumentActor.handle_message] at h
    split at h
    · exact Option.noConfusion h
    · split at h
      · exact Option.noConfusion h
      · split at h
        · exact Option.noConfusion h
        · split at h
          · exact Option.noConfusion h
          · simp only [Option.some.injEq, Prod.mk.injEq] at h
            rw [← h.1]
  | ReceiveSyncMessage m =>
    left
    simp only [DocumentActor.handle_message] at h
    split at h
    · simp only [Option.some.injEq, Prod.mk.injEq] at h
      rw [← h.1, process_crdt_patches_clients]
    · simp only [Option.some.injEq, Prod.mk.injEq] at h
      rw [← h.1]
  | GenerateSyncMessage =>
    left
    simp only [DocumentActor.handle_message, Option.some.injEq, Prod.mk.injEq] at h
    rw [← h.1]
  | NewEditorConnection hdl =>
    right
    refine ⟨hdl, rfl, ?_⟩
    simp only [DocumentActor.handle_message, Option.some.injEq, Prod.mk.injEq] at h
    rw [← h.1]

/-- C9: every `NewEditorConnection` registers under the fixed key
`EditorId(0)`: in reachable actor states the client map is empty or a single
entry under key 0; handling `NewEditorConnection h` on a reachable state
leaves exactly `[(0, h)]` — a later connection silently replaces the earlier
one — and a delta sent to the editors of such a state is delivered only to
that most recent handle. -/
theorem C9_single_editor_slot :
    (∀ a : DocumentActor, a.Reachable →
      a.editor_clients = [] ∨ ∃ h, a.editor_clients = [(0, h)]) ∧
    (∀ (a : DocumentActor) (hdl : Nat) (a' : DocumentActor) (eff : ActorEffects),
      a.Reachable → a.handle_message (DocMessage.NewEditorConnection hdl) = some (a', eff) →
      a'.editor_clients = [(0, hdl)]) ∧
    (∀ (hdl : Nat) (rd : RevisionedEditorTextDelta),
      sendToEditors [(0, hdl)] rd = [(hdl, rd)]) := by
  have hinv : ∀ a : DocumentActor, a.Reachable →
      a.editor_clients = [] ∨ ∃ h, a.editor_clients = [(0, h)] := by
    intro a ha
    induction ha with
    | start => left; rfl
    | startHost t => left; rfl
    | step hr hstep ih =>
      obtain hcl | ⟨hdl0, _, hcl⟩ := handle_message_clients _ _ _ _ hstep
      · rw [hcl]; exact ih
      · rw [hcl]
        right
        rcases ih with h0 | ⟨h1, he⟩
        · rw [h0]
          exact ⟨hdl0, rfl⟩
        · rw [he]
          exact ⟨hdl0, by simp [insertClient]⟩
  refine ⟨hinv, ?_, ?_⟩
  · intro a hdl a' eff ha hstep
    simp only [DocumentActor.handle_message, Option.some.injEq, Prod.mk.injEq] at hstep
    obtain ⟨ha', _⟩ := hstep
    subst ha'
    show insertClient a.editor_clients 0 hdl = [(0, hdl)]
    rcases hinv a ha with h0 | ⟨h1, he⟩
    · rw [h0]
      rfl
    · rw [he]
      simp [insertClient]
  · intro hdl rd
    rfl

/-- Witness for C9 at the empty-text host actor and handle 7. -/
theorem C9_single_editor_slot_witness :
    c6_state.Reachable ∧
    (c6_state.editor_clients = [] ∨ ∃ h, c6_state.editor_clients = [(0, h)]) ∧
    c9_after.editor_clients = [(0, 7)] ∧
    sendToEditors [(0, 7)] { revision := 0, delta := [] }
      = [(7, { revision := 0, delta := [] })] := by
  have ha : c6_state.Reachable := DocumentActor.Reachable.startHost []
  have hstep : c6_state.handle_message (DocMessage.NewEditorConnection 7)
      = some (c9_after, {}) := by decide
  exact ⟨ha, C9_single_editor_slot.1 c6_state ha,
    C9_single_editor_slot.2.1 c6_state 7 c9_after {} ha hstep,
    C9_single_editor_slot.2.2 7 _⟩

/-- C10: whenever the document holds no text object at key `"text"` (a
joiner before the first sync message), `current_content` returns an `Err`
value rather than panicking, and `GetContent` replies with exactly that
error over its response channel. -/
theorem C10_missing_text_object_error :
    (∀ d : Document, d.text = none → ∃ e, d.current_content = Except.error e) ∧
    (∀ a : DocumentActor, a.crdt_doc.text = none →
      a.handle_message DocMessage.GetContent
        = some (a, { content_reply := some a.crdt_doc.current_content }) ∧
      ∃ e, a.crdt_doc.current_content = Except.error e) := by
  constructor
  · intro d hd
    unfold Document.current_content Document.text_obj
    rw [hd]
    exact ⟨_, rfl⟩
  · intro a ha
    refine ⟨rfl, ?_⟩
    unfold Document.current_content Document.text_obj
    rw [ha]
    exact ⟨_, rfl⟩

/-- Witness for C10: the fresh joiner actor. -/
theorem C10_missing_text_object_error_witness :
    c10_state.crdt_doc.text = none ∧
    (c10_state.handle_message DocMessage.GetContent
        = some (c10_state, { content_reply := some c10_state.crdt_doc.current_content }) ∧
      ∃ e, c10_state.crdt_doc.current_content = Except.error e) :=
  ⟨rfl, C10_missing_text_object_error.2 c10_state rfl⟩

end Ethersync
